import Mathlib

/-!
Verification of cargo's dep-info handling
(`src/cargo/core/compiler/fingerprint/dep_info.rs`).

The development shallowly embeds the functions of that module:

* the binary codec `EncodedDepInfo::parse` / `EncodedDepInfo::serialize`
  over byte sequences (bytes are `Fin 256`, little-endian integers are
  read back as natural numbers, the `&mut &[u8]` cursors of the Rust code
  become explicit state passing);
* the checksum text codec `Checksum::from_str` / `Display for Checksum`;
* the path classification closure `serialize_path` of `translate_dep_info`
  together with its environment-variable `retain` filter;
* the makefile-style parser `parse_rustc_dep_info` with its helpers
  (`unescape_env`, the backslash-continuation loop);
* the read-back entry point `parse_dep_info`.

Rust `String`s are modelled as `List Char`; their byte form is obtained
through a faithful UTF-8 encoder, and `String::from_utf8` of the Rust code
becomes the matching UTF-8 decoder.  Paths read from the binary format are
byte strings (`paths::bytes2path` and `paths::path2bytes` are the identity
on Unix).
-/

set_option maxRecDepth 4096

/-- A byte, as stored in the on-disk dep-info files. -/
abbrev Byte := Fin 256

/-- Builds a byte from a natural number, truncating like `as u8` does. -/
def byte (n : Nat) : Byte := ⟨n % 256, Nat.mod_lt n (by decide)⟩

/-! ## Little-endian readers

These model the helper functions nested inside `EncodedDepInfo::parse`.
The Rust helpers advance a `&mut &[u8]` cursor; here each reader returns
the value read together with the remaining bytes, and `none` models the
`Option` failure when too few bytes remain. -/

/-- Model of `read_u8`: takes one byte off the front. -/
def read_u8 (bytes : List Byte) : Option (Byte × List Byte) :=
  match bytes with
  | b :: rest => some (b, rest)
  | [] => none

/-- Model of `read_bool`: reads one byte and tests it against zero
(`read_u8(bytes).map(|b| b != 0)`). -/
def read_bool (bytes : List Byte) : Option (Bool × List Byte) :=
  (read_u8 bytes).map (fun p => (p.1.val != 0, p.2))

/-- Model of `read_usize`: reads a `u32` little-endian
(`u32::from_le_bytes`) and widens it. -/
def read_usize (bytes : List Byte) : Option (Nat × List Byte) :=
  match bytes with
  | b0 :: b1 :: b2 :: b3 :: rest =>
      some (b0.val + 2 ^ 8 * b1.val + 2 ^ 16 * b2.val + 2 ^ 24 * b3.val, rest)
  | _ => none

/-- Model of `read_u64`: reads a `u64` little-endian. -/
def read_u64 (bytes : List Byte) : Option (Nat × List Byte) :=
  match bytes with
  | b0 :: b1 :: b2 :: b3 :: b4 :: b5 :: b6 :: b7 :: rest =>
      some (b0.val + 2 ^ 8 * b1.val + 2 ^ 16 * b2.val + 2 ^ 24 * b3.val
        + 2 ^ 32 * b4.val + 2 ^ 40 * b5.val + 2 ^ 48 * b6.val + 2 ^ 56 * b7.val, rest)
  | _ => none

/-- Model of `read_bytes`: reads a `u32` length and then that many bytes
(`bytes.get(..n)` fails when fewer than `n` bytes remain).  The cursor
advance of the inner `read_usize` persists even when the content read then
fails, as with the `&mut &[u8]` cursor of the source, so the function
returns the read value and the cursor separately. -/
def read_bytes (bytes : List Byte) : Option (List Byte) × List Byte :=
  match read_usize bytes with
  | none => (none, bytes)
  | some (n, rest) =>
      if n ≤ rest.length then (some (rest.take n), rest.drop n) else (none, rest)

/-! ## Little-endian writers

These model the helper functions nested inside `EncodedDepInfo::serialize`.
Truncating casts (`val as u32`) are reproduced by the `% 256` inside
`byte`. -/

/-- Model of `write_usize`: `u32::to_le_bytes(val as u32)`. -/
def write_usize (n : Nat) : List Byte :=
  [byte n, byte (n / 2 ^ 8), byte (n / 2 ^ 16), byte (n / 2 ^ 24)]

/-- Model of `write_u64`: `u64::to_le_bytes(val)`. -/
def write_u64 (n : Nat) : List Byte :=
  [byte n, byte (n / 2 ^ 8), byte (n / 2 ^ 16), byte (n / 2 ^ 24),
   byte (n / 2 ^ 32), byte (n / 2 ^ 40), byte (n / 2 ^ 48), byte (n / 2 ^ 56)]

/-- Model of `write_bool`: a single `0` or `1` byte (`u8::from(val)`). -/
def write_bool (b : Bool) : List Byte :=
  [byte (if b then 1 else 0)]

/-- Model of `write_bytes`: a `u32` length prefix followed by the bytes. -/
def write_bytes (val : List Byte) : List Byte :=
  write_usize val.length ++ val

/-! ## UTF-8

`EncodedDepInfo::parse` runs `String::from_utf8` on the checksum text and
on environment keys and values, and `str::from_utf8` on environment keys.
Strings are modelled as `List Char`, so the byte form of a string is given
by the standard UTF-8 encoding, and the validation-plus-decoding done by
`String::from_utf8` is the decoder below, which accepts exactly the valid
UTF-8 sequences (rejecting overlong forms, surrogates and out-of-range
sequences, as Rust does). -/

/-- Encodes one scalar value as UTF-8 bytes. -/
def utf8EncodeChar (c : Char) : List Byte :=
  let n := c.toNat
  if n < 0x80 then [byte n]
  else if n < 0x800 then [byte (0xC0 + n / 64), byte (0x80 + n % 64)]
  else if n < 0x10000 then
    [byte (0xE0 + n / 4096), byte (0x80 + n / 64 % 64), byte (0x80 + n % 64)]
  else
    [byte (0xF0 + n / 262144), byte (0x80 + n / 4096 % 64),
     byte (0x80 + n / 64 % 64), byte (0x80 + n % 64)]

/-- UTF-8 byte form of a string. -/
def utf8Encode (s : List Char) : List Byte :=
  (s.map utf8EncodeChar).flatten

/-- Tests for a UTF-8 continuation byte. -/
def utf8IsCont (b : Byte) : Bool :=
  0x80 ≤ b.val && b.val ≤ 0xBF

/-- Continuation of a two-byte UTF-8 sequence. -/
def utf8Cont1 (b : Byte) : List Byte → Option (Nat × List Byte)
  | b1 :: rest1 =>
    if utf8IsCont b1 then some ((b.val - 0xC0) * 64 + (b1.val - 0x80), rest1) else none
  | [] => none

/-- Continuation of a three-byte UTF-8 sequence; the range of the first
continuation byte depends on the leading byte (excluding overlong forms
and surrogates). -/
def utf8Cont2 (b : Byte) : List Byte → Option (Nat × List Byte)
  | b1 :: b2 :: rest2 =>
    if (if b.val = 0xE0 then 0xA0 else 0x80) ≤ b1.val
        && b1.val ≤ (if b.val = 0xED then 0x9F else 0xBF)
        && utf8IsCont b2 then
      some ((b.val - 0xE0) * 4096 + (b1.val - 0x80) * 64 + (b2.val - 0x80), rest2)
    else none
  | _ => none

/-- Continuation of a four-byte UTF-8 sequence; the range of the first
continuation byte depends on the leading byte (excluding overlong forms
and values past U+10FFFF). -/
def utf8Cont3 (b : Byte) : List Byte → Option (Nat × List Byte)
  | b1 :: b2 :: b3 :: rest3 =>
    if (if b.val = 0xF0 then 0x90 else 0x80) ≤ b1.val
        && b1.val ≤ (if b.val = 0xF4 then 0x8F else 0xBF)
        && utf8IsCont b2 && utf8IsCont b3 then
      some ((b.val - 0xF0) * 262144 + (b1.val - 0x80) * 4096
        + (b2.val - 0x80) * 64 + (b3.val - 0x80), rest3)
    else none
  | _ => none

/-- Decodes one UTF-8 scalar value off the front of a byte sequence. -/
def utf8DecodeChar1 : List Byte → Option (Nat × List Byte)
  | [] => none
  | b :: rest =>
    if b.val < 0x80 then some (b.val, rest)
    else if b.val < 0xC2 then none
    else if b.val < 0xE0 then utf8Cont1 b rest
    else if b.val < 0xF0 then utf8Cont2 b rest
    else if b.val < 0xF5 then utf8Cont3 b rest
    else none

/-- A successful scalar decode consumes at least the leading byte. -/
theorem utf8DecodeChar1_length (l : List Byte) (n : Nat) (rest : List Byte)
    (h : utf8DecodeChar1 l = some (n, rest)) : rest.length < l.length := by
  cases l with
  | nil => simp [utf8DecodeChar1] at h
  | cons b tail =>
    rw [utf8DecodeChar1] at h
    split_ifs at h
    · cases h
      simp
    · cases tail with
      | nil => simp [utf8Cont1] at h
      | cons b1 rest1 =>
        rw [utf8Cont1] at h
        split_ifs at h <;> cases h
        simp only [List.length_cons]
        omega
    · cases tail with
      | nil => simp [utf8Cont2] at h
      | cons b1 t1 =>
        cases t1 with
        | nil => simp [utf8Cont2] at h
        | cons b2 rest2 =>
          rw [utf8Cont2] at h
          split_ifs at h <;> cases h <;>
            (simp only [List.length_cons]
             omega)
    · cases tail with
      | nil => simp [utf8Cont3] at h
      | cons b1 t1 =>
        cases t1 with
        | nil => simp [utf8Cont3] at h
        | cons b2 t2 =>
          cases t2 with
          | nil => simp [utf8Cont3] at h
          | cons b3 rest3 =>
            rw [utf8Cont3] at h
            split_ifs at h <;> cases h <;>
              (simp only [List.length_cons]
               omega)

/-- UTF-8 decoding, the model of `String::from_utf8` (and of
`str::from_utf8` composed with `to_string`): returns the decoded string
exactly when the bytes are valid UTF-8 (rejecting overlong forms,
surrogates and out-of-range sequences, as Rust does). -/
def utf8Decode (bytes : List Byte) : Option (List Char) :=
  match bytes with
  | [] => some []
  | b :: rest =>
    match h : utf8DecodeChar1 (b :: rest) with
    | none => none
    | some (n, rest1) => (utf8Decode rest1).map (fun cs => Char.ofNat n :: cs)
termination_by bytes.length
decreasing_by
  have := utf8DecodeChar1_length (b :: rest) n rest1 h
  omega

/-! ## Checksums

Model of the `ChecksumAlgo` and `Checksum` types and their text codec. -/

/-- The supported checksum algorithms. -/
inductive ChecksumAlgo where
  | Sha256
  | Blake3
deriving DecidableEq

/-- Error type of the checksum text parser (`InvalidChecksum` in the
source). -/
inductive InvalidChecksum where
  | InvalidChecksumAlgo
  | InvalidChecksum (algo : ChecksumAlgo)
  | InvalidFormat
deriving DecidableEq

/-- Model of `ChecksumAlgo::hash_len`. -/
def ChecksumAlgo.hash_len : ChecksumAlgo → Nat
  | .Sha256 => 32
  | .Blake3 => 32

/-- Model of `FromStr for ChecksumAlgo`. -/
def ChecksumAlgo.from_str (s : List Char) : Except InvalidChecksum ChecksumAlgo :=
  if s = "sha256".toList then .ok .Sha256
  else if s = "blake3".toList then .ok .Blake3
  else .error .InvalidChecksumAlgo

/-- Model of `Display for ChecksumAlgo`. -/
def ChecksumAlgo.str : ChecksumAlgo → List Char
  | .Sha256 => "sha256".toList
  | .Blake3 => "blake3".toList

/-- Model of the `Checksum` struct: an algorithm and a 32-byte buffer
(bytes past `hash_len` are zero; stating theorems carries the length-32
well-formedness explicitly). -/
structure Checksum where
  algo : ChecksumAlgo
  value : List Byte
deriving DecidableEq

/-- Value of one hexadecimal digit, accepting both cases, as
`hex::decode_to_slice` does. -/
def hexDigit (c : Char) : Option Nat :=
  if '0' ≤ c ∧ c ≤ '9' then some (c.toNat - 48)
  else if 'a' ≤ c ∧ c ≤ 'f' then some (c.toNat - 87)
  else if 'A' ≤ c ∧ c ≤ 'F' then some (c.toNat - 55)
  else none

/-- Decodes pairs of hex digits into bytes; fails on an odd count or a
non-hex character. -/
def hexDecodePairs : List Char → Option (List Byte)
  | [] => some []
  | [_] => none
  | c1 :: c2 :: rest =>
    match hexDigit c1, hexDigit c2, hexDecodePairs rest with
    | some h, some l, some bs => some (byte (16 * h + l) :: bs)
    | _, _, _ => none

/-- Model of `hex::decode_to_slice(checksum, &mut value[0..n])`: requires
exactly `2 * n` hex digits. -/
def hexDecodeTo (s : List Char) (n : Nat) : Option (List Byte) :=
  if s.length = 2 * n then hexDecodePairs s else none

/-- Lowercase hex digit character. -/
def hexDigitChar (n : Nat) : Char :=
  if n < 10 then Char.ofNat (48 + n) else Char.ofNat (87 + n)

/-- Lowercase hex encoding of bytes, as `hex::encode_to_slice` produces. -/
def hexEncode : List Byte → List Char
  | [] => []
  | b :: rest => hexDigitChar (b.val / 16) :: hexDigitChar (b.val % 16) :: hexEncode rest

/-- Model of `FromStr for Checksum`: splits on `=`; the part before the
first `=` names the algorithm (its parse error propagates first), a
missing second part is `InvalidFormat`, and the hex part must decode to
exactly `hash_len` bytes. -/
def Checksum.from_str (s : List Char) : Except InvalidChecksum Checksum :=
  match ChecksumAlgo.from_str (s.takeWhile (· ≠ '=')) with
  | .error e => .error e
  | .ok algo =>
    match s.dropWhile (· ≠ '=') with
    | [] => .error .InvalidFormat
    | _ :: afterEq =>
      match hexDecodeTo (afterEq.takeWhile (· ≠ '=')) algo.hash_len with
      | none => .error (.InvalidChecksum algo)
      | some v => .ok ⟨algo, v ++ List.replicate (32 - algo.hash_len) (byte 0)⟩

/-- Model of `Display for Checksum`: `<algorithm>=<lowercase hex of the
first hash_len bytes>`. -/
def Checksum.display (c : Checksum) : List Char :=
  c.algo.str ++ '=' :: hexEncode (c.value.take c.algo.hash_len)

/-! ## The binary format -/

/-- Model of `DepInfoPathType`. -/
inductive DepInfoPathType where
  | PackageRootRelative
  | TargetRootRelative
deriving DecidableEq

/-- Model of `EncodedDepInfo`.  Paths are byte strings (on Unix,
`paths::bytes2path` and `paths::path2bytes` are the identity), checksum
text and environment keys and values are strings. -/
structure EncodedDepInfo where
  files : List (DepInfoPathType × List Byte × Option (Nat × List Char))
  env : List (List Char × Option (List Char))
deriving DecidableEq

/-- File-entry loop of `EncodedDepInfo::parse`.  The checksum block
mirrors `has_checksum.then(|| { .. }).flatten()`: its two reads may fail
without failing the parse, and bytes consumed by a successful read stay
consumed even when the block as a whole yields nothing. -/
def parseFiles : Nat → List Byte →
    Option (List (DepInfoPathType × List Byte × Option (Nat × List Char)) × List Byte)
  | 0, bytes => some ([], bytes)
  | Nat.succ k, bytes =>
    match read_u8 bytes with
    | none => none
    | some (tyb, bytes) =>
      match (match tyb.val with
             | 0 => some DepInfoPathType.PackageRootRelative
             | 1 => some DepInfoPathType.TargetRootRelative
             | _ => none) with
      | none => none
      | some ty =>
        match read_bytes bytes with
        | (none, _) => none
        | (some path, bytes) =>
          match read_bool bytes with
          | none => none
          | some (has_checksum, bytes) =>
            let st :=
              if has_checksum then
                let p1 := match read_u64 bytes with
                  | some (v, rest) => (some v, rest)
                  | none => (none, bytes)
                let p2 := match read_bytes p1.2 with
                  | (some v, rest) => (utf8Decode v, rest)
                  | (none, rest) => (none, rest)
                (match p1.1, p2.1 with
                 | some len, some cs => some (len, cs)
                 | _, _ => none, p2.2)
              else (none, bytes)
            match parseFiles k st.2 with
            | none => none
            | some (rest_files, bytes) => some ((ty, path, st.1) :: rest_files, bytes)

/-- Environment loop of `EncodedDepInfo::parse`: a length-prefixed UTF-8
key, a presence byte that must be `0` or `1`, and for `1` a
length-prefixed UTF-8 value. -/
def parseEnv : Nat → List Byte →
    Option (List (List Char × Option (List Char)) × List Byte)
  | 0, bytes => some ([], bytes)
  | Nat.succ k, bytes =>
    match read_bytes bytes with
    | (none, _) => none
    | (some key_bytes, bytes) =>
      match utf8Decode key_bytes with
      | none => none
      | some key =>
        match read_u8 bytes with
        | none => none
        | some (vb, bytes) =>
          match (match vb.val with
                 | 0 => some (none, bytes)
                 | 1 =>
                   match read_bytes bytes with
                   | (none, _) => none
                   | (some val_bytes, bytes) =>
                     match utf8Decode val_bytes with
                     | none => none
                     | some val => some (some val, bytes)
                 | _ => none) with
          | none => none
          | some (val, bytes) =>
            match parseEnv k bytes with
            | none => none
            | some (rest_env, bytes) => some ((key, val) :: rest_env, bytes)

/-- Model of `EncodedDepInfo::parse`: a file count, that many file
entries, an environment count, that many environment entries.  Trailing
bytes are ignored, as in the source. -/
def EncodedDepInfo.parse (input : List Byte) : Option EncodedDepInfo :=
  match read_usize input with
  | none => none
  | some (nfiles, bytes) =>
    match parseFiles nfiles bytes with
    | none => none
    | some (files, bytes) =>
      match read_usize bytes with
      | none => none
      | some (nenv, bytes) =>
        match parseEnv nenv bytes with
        | none => none
        | some (env, _) => some ⟨files, env⟩

/-- Serialization of one file entry of `EncodedDepInfo::serialize`. -/
def serializeFile (e : DepInfoPathType × List Byte × Option (Nat × List Char)) : List Byte :=
  (match e.1 with
   | DepInfoPathType.PackageRootRelative => [byte 0]
   | DepInfoPathType.TargetRootRelative => [byte 1])
  ++ write_bytes e.2.1
  ++ write_bool e.2.2.isSome
  ++ (match e.2.2 with
      | some (len, cs) => write_u64 len ++ write_bytes (utf8Encode cs)
      | none => [])

/-- Serialization of one environment entry of
`EncodedDepInfo::serialize`. -/
def serializeEnvPair (kv : List Char × Option (List Char)) : List Byte :=
  write_bytes (utf8Encode kv.1)
  ++ (match kv.2 with
      | none => [byte 0]
      | some v => byte 1 :: write_bytes (utf8Encode v))

/-- Model of `EncodedDepInfo::serialize`.  The Rust function returns
`CargoResult<Vec<u8>>` only because `path2bytes` is fallible on Windows;
on Unix it always succeeds, so the model is total. -/
def EncodedDepInfo.serialize (info : EncodedDepInfo) : List Byte :=
  write_usize info.files.length ++ (info.files.map serializeFile).flatten
  ++ write_usize info.env.length ++ (info.env.map serializeEnvPair).flatten

/-! ## Read-back (`parse_dep_info`) -/

/-- Model of `RustcDepInfo`.  The `files` hash map is modelled as an
association list (keys are path byte strings); `env` keeps its order as in
the source `Vec`. -/
structure RustcDepInfo where
  files : List (List Byte × Option (Nat × Checksum))
  env : List (List Char × Option (List Char))
deriving DecidableEq

/-- Model of `make_absolute_path`.  On Unix, `PathBuf::join` keeps an
absolute right-hand side (one starting with `/`, byte 47) unchanged and
otherwise appends it to the root with a separator. -/
def make_absolute_path (ty : DepInfoPathType) (pkg_root target_root path : List Byte) :
    List Byte :=
  let joinP := fun (root p : List Byte) =>
    if p.head? = some (byte 47) then p else root ++ byte 47 :: p
  match ty with
  | DepInfoPathType.PackageRootRelative => joinP pkg_root path
  | DepInfoPathType.TargetRootRelative => joinP target_root path

/-- Model of `parse_dep_info`.  Reading the file from disk is abstracted
into the `readResult` argument: `none` models an unreadable file, `some
data` a successful read of `data`.  The result type mirrors
`CargoResult<Option<RustcDepInfo>>`. -/
def parse_dep_info (pkg_root target_root : List Byte) (readResult : Option (List Byte)) :
    Except String (Option RustcDepInfo) :=
  match readResult with
  | none => .ok none
  | some data =>
    match EncodedDepInfo.parse data with
    | none => .ok none
    | some info =>
      .ok (some
        { env := info.env
          files := info.files.map (fun e =>
            (make_absolute_path e.1 pkg_root target_root e.2.1,
             e.2.2.bind (fun lc =>
               (Checksum.from_str lc.2).toOption.map (fun c => (lc.1, c))))) })

/-! ## Path translation (`translate_dep_info`) -/

/-- A filesystem path for the path-translation layer: an absoluteness
flag and a component list, enough to model `Path::join` and
`Path::strip_prefix`. -/
structure FsPath where
  absolute : Bool
  comps : List String
deriving DecidableEq

/-- Model of `Path::join`: an absolute right-hand side replaces the
base. -/
def FsPath.join (base p : FsPath) : FsPath :=
  if p.absolute then p else ⟨base.absolute, base.comps ++ p.comps⟩

/-- Model of `Path::strip_prefix`: succeeds when the base is a
component-wise prefix, yielding the relative remainder. -/
def FsPath.stripPrefix (p base : FsPath) : Option FsPath :=
  if base.absolute = p.absolute ∧ base.comps <+: p.comps then
    some ⟨false, p.comps.drop base.comps.length⟩
  else none

instance (p base : FsPath) :
    Decidable (base.absolute = p.absolute ∧ base.comps <+: p.comps) :=
  instDecidableAnd

/-- Model of the `serialize_path` closure of `translate_dep_info`.
Canonicalization (`try_canonicalize`, a filesystem operation) is an
oracle argument `canon`; when it fails the absolute path is used
unchanged. -/
def serialize_path (canon : FsPath → Option FsPath)
    (rustc_cwd pkg_root target_root : FsPath) (allow_package : Bool)
    (file : FsPath) : Option (DepInfoPathType × FsPath) :=
  let abs_file := rustc_cwd.join file
  let canon_file := (canon abs_file).getD abs_file
  match FsPath.stripPrefix canon_file target_root with
  | some stripped => some (DepInfoPathType.TargetRootRelative, stripped)
  | none =>
    match FsPath.stripPrefix canon_file pkg_root with
    | some stripped =>
      if !allow_package then none
      else some (DepInfoPathType.PackageRootRelative, stripped)
    | none => some (DepInfoPathType.TargetRootRelative, abs_file)

/-- Constant `crate::CARGO_ENV`, the environment variable naming the
build tool's own path.  The constant itself lives outside the sources
under verification; its value is the conventional `CARGO`. -/
def CARGO_ENV : List Char := "CARGO".toList

/-- Model of the `on_disk_info.env.retain(..)` filter of
`translate_dep_info`.  Membership tests on the `[env]` table
(`env_config.contains_key`) and on the compiler command's environment map
(`rustc_cmd.get_envs().contains_key`) are the oracle arguments. -/
def retainDepInfoEnv (envConfigContains rustcEnvContains : List Char → Bool)
    (env : List (List Char × Option (List Char))) :
    List (List Char × Option (List Char)) :=
  env.filter (fun kv =>
    envConfigContains kv.1 || !rustcEnvContains kv.1 || kv.1 == CARGO_ENV)

/-! ## The rustc dep-info text parser (`parse_rustc_dep_info`) -/

/-- Error type covering the failure paths of `parse_rustc_dep_info`:
the `internal("malformed dep-info format, trailing \\")` error, the two
`bail!` messages of `unescape_env`, and a propagated checksum parse
error. -/
inductive DepParseError where
  | trailingBackslash
  | unknownEscape (c : Char)
  | unterminatedEscape
  | checksum (e : InvalidChecksum)
deriving DecidableEq

/-- Model of the nested `unescape_env` helper: undoes `\\`, `\n` and
`\r`; any other escaped character or a trailing backslash is an error. -/
def unescape_env : List Char → Except DepParseError (List Char)
  | [] => .ok []
  | c :: rest =>
    if c ≠ '\\' then (unescape_env rest).map (fun s => c :: s)
    else
      match rest with
      | '\\' :: rest1 => (unescape_env rest1).map (fun s => '\\' :: s)
      | 'n' :: rest1 => (unescape_env rest1).map (fun s => '\n' :: s)
      | 'r' :: rest1 => (unescape_env rest1).map (fun s => '\r' :: s)
      | c2 :: _ => .error (.unknownEscape c2)
      | [] => .error .unterminatedEscape

/-- Unicode white space, the set recognized by Rust's
`char::is_whitespace` (used through `str::split_whitespace`). -/
def rustIsWhitespace (c : Char) : Bool :=
  c = ' ' || ('\t' ≤ c && c ≤ '\r') || c = Char.ofNat 0x85 || c = Char.ofNat 0xA0
  || c = Char.ofNat 0x1680 || (Char.ofNat 0x2000 ≤ c && c ≤ Char.ofNat 0x200A)
  || c = Char.ofNat 0x2028 || c = Char.ofNat 0x2029 || c = Char.ofNat 0x202F
  || c = Char.ofNat 0x205F || c = Char.ofNat 0x3000

/-- Auxiliary length bound used in termination arguments. -/
theorem dropWhileLengthLe (p : Char → Bool) (cs : List Char) :
    (cs.dropWhile p).length ≤ cs.length := by
  induction cs with
  | nil => simp
  | cons c cs ih =>
    rw [List.dropWhile_cons]
    split
    · simp only [List.length_cons]
      omega
    · simp

/-- Model of `str::split_whitespace`: maximal runs of non-whitespace
characters, in order, with no empty tokens. -/
def splitWhitespace : List Char → List (List Char)
  | [] => []
  | c :: cs =>
    if rustIsWhitespace c then splitWhitespace cs
    else (c :: cs.takeWhile (fun d => !rustIsWhitespace d))
      :: splitWhitespace (cs.dropWhile (fun d => !rustIsWhitespace d))
termination_by l => l.length
decreasing_by
  · simp only [List.length_cons]
    omega
  · simp only [List.length_cons]
    exact Nat.lt_succ_of_le (dropWhileLengthLe _ _)

/-- Index of the first occurrence of the two-character pattern `": "`,
the model of `line.find(": ")`. -/
def findColonSpace : List Char → Option Nat
  | ':' :: ' ' :: _ => some 0
  | _ :: rest => (findColonSpace rest).map (· + 1)
  | [] => none

/-- The continuation-joining `while` loop of the dependency line: as long
as the accumulated token ends in a backslash, the backslash is replaced
by a space and the next token appended; a missing next token is the
`trailing \\` error. -/
def absorbToken (file : List Char) (toks : List (List Char)) :
    Except DepParseError (List Char × List (List Char)) :=
  if file.getLast? = some '\\' then
    match toks with
    | [] => .error .trailingBackslash
    | t :: rest => absorbToken (file.dropLast ++ ' ' :: t) rest
  else .ok (file, toks)

/-- An `absorbToken` success never lengthens the token stream. -/
theorem absorbToken_ok_length (file : List Char) (toks : List (List Char))
    (g : List Char) (toks1 : List (List Char))
    (h : absorbToken file toks = .ok (g, toks1)) : toks1.length ≤ toks.length := by
  induction toks generalizing file with
  | nil =>
    unfold absorbToken at h
    split at h
    · exact absurd h (by simp)
    · simp at h
      simp [h.2]
  | cons t rest ih =>
    unfold absorbToken at h
    split at h
    · have := ih _ h
      simp only [List.length_cons]
      omega
    · simp at h
      simp [h.2]

/-- The `while let Some(s) = deps.next()` loop over the dependency-line
tokens, producing the final file tokens. -/
def collectFiles (toks : List (List Char)) :
    Except DepParseError (List (List Char)) :=
  match toks with
  | [] => .ok []
  | s :: rest =>
    match h : absorbToken s rest with
    | .error e => .error e
    | .ok (file, rest1) =>
      match collectFiles rest1 with
      | .error e => .error e
      | .ok fs => .ok (file :: fs)
termination_by toks.length
decreasing_by
  simp only [List.length_cons]
  have := absorbToken_ok_length _ _ _ _ h
  omega

/-- Model of `rest.splitn(3, ' ')` as used on checksum lines: the first
two space-separated fields and the unsplit remainder. -/
def splitn3Space (s : List Char) :
    List Char × Option (List Char) × Option (List Char) :=
  let p1 := s.takeWhile (· ≠ ' ')
  match s.dropWhile (· ≠ ' ') with
  | [] => (p1, none, none)
  | _ :: rest =>
    let p2 := rest.takeWhile (· ≠ ' ')
    match rest.dropWhile (· ≠ ' ') with
    | [] => (p1, some p2, none)
    | _ :: rest2 => (p1, some p2, some rest2)

/-- Model of `str::parse::<u64>`: an optional leading `+`, then at least
one decimal digit, rejecting values that overflow a `u64`. -/
def parseU64 (s : List Char) : Option Nat :=
  let digits := match s with
    | '+' :: r => r
    | _ => s
  if digits.isEmpty then none
  else if digits.all Char.isDigit then
    let v := digits.foldl (fun a c => a * 10 + (c.toNat - 48)) 0
    if v < 2 ^ 64 then some v else none
  else none

/-- Model of `ret.files.entry(file).or_default()` on the association
list: inserts `none` when the key is absent, keeps an existing entry. -/
def filesEntryOrDefault (files : List (List Byte × Option (Nat × Checksum)))
    (k : List Byte) : List (List Byte × Option (Nat × Checksum)) :=
  if files.any (fun e => e.1 == k) then files else files ++ [(k, none)]

/-- Model of `ret.files.insert(path, v)` on the association list:
replaces the value of an existing key, otherwise appends. -/
def filesInsert (files : List (List Byte × Option (Nat × Checksum)))
    (k : List Byte) (v : Option (Nat × Checksum)) :
    List (List Byte × Option (Nat × Checksum)) :=
  if files.any (fun e => e.1 == k) then
    files.map (fun e => if e.1 == k then (k, v) else e)
  else files ++ [(k, v)]

/-- One iteration of the `for line in contents.lines()` loop of
`parse_rustc_dep_info`, acting on the `found_deps` flag and the record
under construction.  The branches are, in source order: `# env-dep:`
lines, lines containing `": "` (only the first such line is processed),
`# checksum:` lines, and all other lines are skipped. -/
def processLine (st : Bool × RustcDepInfo) (line : List Char) :
    Except DepParseError (Bool × RustcDepInfo) :=
  if "# env-dep:".toList.isPrefixOf line then
    let rest := line.drop 10
    let env_var := rest.takeWhile (· ≠ '=')
    match (match rest.dropWhile (· ≠ '=') with
           | [] => Except.ok none
           | _ :: v => (unescape_env v).map some) with
    | .error e => .error e
    | .ok env_val =>
      match unescape_env env_var with
      | .error e => .error e
      | .ok k => .ok (st.1, ⟨st.2.files, st.2.env ++ [(k, env_val)]⟩)
  else
    match findColonSpace line with
    | some pos =>
      if st.1 then .ok st
      else
        match collectFiles (splitWhitespace (line.drop (pos + 2))) with
        | .error e => .error e
        | .ok fs =>
          .ok (true,
            ⟨fs.foldl (fun acc f => filesEntryOrDefault acc (utf8Encode f)) st.2.files,
             st.2.env⟩)
    | none =>
      if "# checksum:".toList.isPrefixOf line then
        let rest := line.drop 11
        let parts := splitn3Space rest
        match Checksum.from_str parts.1 with
        | .error e => .error (.checksum e)
        | .ok checksum =>
          match parts.2.1.bind (fun s =>
                  if "file_len:".toList.isPrefixOf s then parseU64 (s.drop 9)
                  else none) with
          | none => .ok st
          | some file_len =>
            match parts.2.2 with
            | none => .ok st
            | some path =>
              .ok (st.1,
                ⟨filesInsert st.2.files (utf8Encode path) (some (file_len, checksum)),
                 st.2.env⟩)
      else .ok st

/-- The line loop of `parse_rustc_dep_info`, threading the `found_deps`
flag and the record. -/
def parseLines : Bool → RustcDepInfo → List (List Char) →
    Except DepParseError RustcDepInfo
  | _, ret, [] => .ok ret
  | found, ret, l :: ls =>
    match processLine (found, ret) l with
    | .error e => .error e
    | .ok st => parseLines st.1 st.2 ls

/-- Model of `parse_rustc_dep_info`.  The argument is the line list
produced by `str::lines` on the file contents. -/
def parse_rustc_dep_info (lines : List (List Char)) :
    Except DepParseError RustcDepInfo :=
  parseLines false ⟨[], []⟩ lines

/-! ## Supporting lemmas: UTF-8 round trip -/

/-- Value of a byte built from a natural number. -/
theorem byte_val (n : Nat) : (byte n).val = n % 256 := rfl

/-- Unfolding of `utf8Decode` when the leading scalar decodes. -/
theorem utf8Decode_eq_cons (b : Byte) (rest : List Byte) (n : Nat) (rest1 : List Byte)
    (h : utf8DecodeChar1 (b :: rest) = some (n, rest1)) :
    utf8Decode (b :: rest) = (utf8Decode rest1).map (fun cs => Char.ofNat n :: cs) := by
  rw [utf8Decode]
  split
  · rename_i hh
    rw [h] at hh
    cases hh
  · rename_i m rest2 hh
    rw [h] at hh
    cases hh
    rfl

/-- Decoding one-byte sequences. -/
theorem utf8DecodeChar1_one (n : Nat) (h : n < 0x80) (bs : List Byte) :
    utf8DecodeChar1 (byte n :: bs) = some (n, bs) := by
  have hb : (byte n).val = n := Nat.mod_eq_of_lt (by omega)
  rw [utf8DecodeChar1]
  simp only [hb]
  rw [if_pos h]

/-- Decoding two-byte sequences. -/
theorem utf8DecodeChar1_two (n : Nat) (h0 : 0x80 ≤ n) (h1 : n < 0x800) (bs : List Byte) :
    utf8DecodeChar1 (byte (0xC0 + n / 64) :: byte (0x80 + n % 64) :: bs)
      = some (n, bs) := by
  have hb0 : (byte (0xC0 + n / 64)).val = 0xC0 + n / 64 := Nat.mod_eq_of_lt (by omega)
  have hb1 : (byte (0x80 + n % 64)).val = 0x80 + n % 64 := Nat.mod_eq_of_lt (by omega)
  have hc : utf8IsCont (byte (0x80 + n % 64)) = true := by
    simp only [utf8IsCont, hb1, Bool.and_eq_true, decide_eq_true_eq]
    omega
  rw [utf8DecodeChar1]
  simp only [hb0]
  rw [if_neg (by omega), if_neg (by omega), if_pos (by omega)]
  rw [utf8Cont1, if_pos hc]
  have harg : ((byte (0xC0 + n / 64)).val - 0xC0) * 64
      + ((byte (0x80 + n % 64)).val - 0x80) = n := by
    rw [hb0, hb1]
    omega
  rw [harg]

/-- Decoding three-byte sequences (surrogate values excluded). -/
theorem utf8DecodeChar1_three (n : Nat) (h0 : 0x800 ≤ n) (h1 : n < 0x10000)
    (hs : n < 0xD800 ∨ 0xDFFF < n) (bs : List Byte) :
    utf8DecodeChar1 (byte (0xE0 + n / 4096) :: byte (0x80 + n / 64 % 64)
        :: byte (0x80 + n % 64) :: bs)
      = some (n, bs) := by
  have hb0 : (byte (0xE0 + n / 4096)).val = 0xE0 + n / 4096 := Nat.mod_eq_of_lt (by omega)
  have hb1 : (byte (0x80 + n / 64 % 64)).val = 0x80 + n / 64 % 64 :=
    Nat.mod_eq_of_lt (by omega)
  have hb2 : (byte (0x80 + n % 64)).val = 0x80 + n % 64 := Nat.mod_eq_of_lt (by omega)
  have hc2 : utf8IsCont (byte (0x80 + n % 64)) = true := by
    simp only [utf8IsCont, hb2, Bool.and_eq_true, decide_eq_true_eq]
    omega
  rw [utf8DecodeChar1]
  simp only [hb0]
  rw [if_neg (by omega), if_neg (by omega), if_neg (by omega), if_pos (by omega)]
  rw [utf8Cont2]
  have hguard : ((if (byte (0xE0 + n / 4096)).val = 0xE0 then 0xA0 else 0x80)
        ≤ (byte (0x80 + n / 64 % 64)).val
      && ((byte (0x80 + n / 64 % 64)).val
        ≤ if (byte (0xE0 + n / 4096)).val = 0xED then 0x9F else 0xBF)
      && utf8IsCont (byte (0x80 + n % 64))) = true := by
    simp only [hb0, hb1, hc2, Bool.and_true]
    by_cases he : 0xE0 + n / 4096 = 0xE0
    · rw [if_pos he, if_neg (by omega)]
      simp only [Bool.and_eq_true, decide_eq_true_eq]
      omega
    · rw [if_neg he]
      by_cases hd : 0xE0 + n / 4096 = 0xED
      · rw [if_pos hd]
        simp only [Bool.and_eq_true, decide_eq_true_eq]
        omega
      · rw [if_neg hd]
        simp only [Bool.and_eq_true, decide_eq_true_eq]
        omega
  rw [if_pos hguard]
  have harg : ((byte (0xE0 + n / 4096)).val - 0xE0) * 4096
      + ((byte (0x80 + n / 64 % 64)).val - 0x80) * 64
      + ((byte (0x80 + n % 64)).val - 0x80) = n := by
    rw [hb0, hb1, hb2]
    omega
  rw [harg]

/-- Decoding four-byte sequences. -/
theorem utf8DecodeChar1_four (n : Nat) (h0 : 0x10000 ≤ n) (h1 : n < 0x110000)
    (bs : List Byte) :
    utf8DecodeChar1 (byte (0xF0 + n / 262144) :: byte (0x80 + n / 4096 % 64)
        :: byte (0x80 + n / 64 % 64) :: byte (0x80 + n % 64) :: bs)
      = some (n, bs) := by
  have hb0 : (byte (0xF0 + n / 262144)).val = 0xF0 + n / 262144 :=
    Nat.mod_eq_of_lt (by omega)
  have hb1 : (byte (0x80 + n / 4096 % 64)).val = 0x80 + n / 4096 % 64 :=
    Nat.mod_eq_of_lt (by omega)
  have hb2 : (byte (0x80 + n / 64 % 64)).val = 0x80 + n / 64 % 64 :=
    Nat.mod_eq_of_lt (by omega)
  have hb3 : (byte (0x80 + n % 64)).val = 0x80 + n % 64 := Nat.mod_eq_of_lt (by omega)
  have hc2 : utf8IsCont (byte (0x80 + n / 64 % 64)) = true := by
    simp only [utf8IsCont, hb2, Bool.and_eq_true, decide_eq_true_eq]
    omega
  have hc3 : utf8IsCont (byte (0x80 + n % 64)) = true := by
    simp only [utf8IsCont, hb3, Bool.and_eq_true, decide_eq_true_eq]
    omega
  rw [utf8DecodeChar1]
  simp only [hb0]
  rw [if_neg (by omega), if_neg (by omega), if_neg (by omega), if_neg (by omega),
    if_pos (by omega)]
  rw [utf8Cont3]
  have hguard : ((if (byte (0xF0 + n / 262144)).val = 0xF0 then 0x90 else 0x80)
        ≤ (byte (0x80 + n / 4096 % 64)).val
      && ((byte (0x80 + n / 4096 % 64)).val
        ≤ if (byte (0xF0 + n / 262144)).val = 0xF4 then 0x8F else 0xBF)
      && utf8IsCont (byte (0x80 + n / 64 % 64))
      && utf8IsCont (byte (0x80 + n % 64))) = true := by
    simp only [hb0, hb1, hc2, hc3, Bool.and_true]
    by_cases he : 0xF0 + n / 262144 = 0xF0
    · rw [if_pos he, if_neg (by omega)]
      simp only [Bool.and_eq_true, decide_eq_true_eq]
      omega
    · rw [if_neg he]
      by_cases hd : 0xF0 + n / 262144 = 0xF4
      · rw [if_pos hd]
        simp only [Bool.and_eq_true, decide_eq_true_eq]
        omega
      · rw [if_neg hd]
        simp only [Bool.and_eq_true, decide_eq_true_eq]
        omega
  rw [if_pos hguard]
  have harg : ((byte (0xF0 + n / 262144)).val - 0xF0) * 262144
      + ((byte (0x80 + n / 4096 % 64)).val - 0x80) * 4096
      + ((byte (0x80 + n / 64 % 64)).val - 0x80) * 64
      + ((byte (0x80 + n % 64)).val - 0x80) = n := by
    rw [hb0, hb1, hb2, hb3]
    omega
  rw [harg]

/-- The scalar decoder inverts the scalar encoder. -/
theorem utf8DecodeChar1_encodeChar (c : Char) (bs : List Byte) :
    utf8DecodeChar1 (utf8EncodeChar c ++ bs) = some (c.toNat, bs) := by
  have hv : c.toNat < 0xd800 ∨ (0xdfff < c.toNat ∧ c.toNat < 0x110000) := c.valid
  by_cases h1 : c.toNat < 0x80
  · rw [utf8EncodeChar, if_pos h1]
    exact utf8DecodeChar1_one c.toNat h1 bs
  · by_cases h2 : c.toNat < 0x800
    · rw [utf8EncodeChar, if_neg h1, if_pos h2]
      exact utf8DecodeChar1_two c.toNat (by omega) h2 bs
    · by_cases h3 : c.toNat < 0x10000
      · rw [utf8EncodeChar, if_neg h1, if_neg h2, if_pos h3]
        exact utf8DecodeChar1_three c.toNat (by omega) h3 (by omega) bs
      · rw [utf8EncodeChar, if_neg h1, if_neg h2, if_neg h3]
        exact utf8DecodeChar1_four c.toNat (by omega) (by omega) bs

/-- The encoding of a character is never empty. -/
theorem utf8EncodeChar_ne_nil (c : Char) : utf8EncodeChar c ≠ [] := by
  rw [utf8EncodeChar]
  split_ifs <;> simp

/-- Decoding resumes cleanly after the encoding of one character. -/
theorem utf8Decode_encodeChar_append (c : Char) (bs : List Byte) :
    utf8Decode (utf8EncodeChar c ++ bs) = (utf8Decode bs).map (fun cs => c :: cs) := by
  match he : utf8EncodeChar c, utf8EncodeChar_ne_nil c with
  | b :: tl, _ =>
    have h := utf8DecodeChar1_encodeChar c bs
    rw [he] at h
    rw [List.cons_append] at h ⊢
    rw [utf8Decode_eq_cons _ _ _ _ h, Char.ofNat_toNat]

/-- Decoding resumes cleanly after the encoding of a string. -/
theorem utf8Decode_encode_append (s : List Char) (bs : List Byte) :
    utf8Decode (utf8Encode s ++ bs) = (utf8Decode bs).map (fun cs => s ++ cs) := by
  induction s with
  | nil =>
    simp only [utf8Encode, List.map_nil, List.flatten_nil, List.nil_append]
    cases utf8Decode bs <;> simp
  | cons c cs ih =>
    simp only [utf8Encode, List.map_cons, List.flatten_cons, List.append_assoc]
    rw [utf8Decode_encodeChar_append c]
    show (utf8Decode (utf8Encode cs ++ bs)).map _ = _
    rw [ih]
    cases utf8Decode bs <;> simp

/-- Round trip of the UTF-8 codec. -/
theorem utf8Decode_encode (s : List Char) : utf8Decode (utf8Encode s) = some s := by
  have h := utf8Decode_encode_append s []
  rw [List.append_nil] at h
  rw [h]
  simp [utf8Decode]

/-! ## Claim C4: environment-entry filtering -/

/-- C4: an environment entry survives `translate_dep_info`'s retain
filter if and only if it was present and its key is in the configured
`[env]` table, or its key is not among the compiler command's own
environment variables, or its key is the build-tool self-path variable
`CARGO_ENV`. -/
theorem c4_env_retain_iff (envConfigContains rustcEnvContains : List Char → Bool)
    (env : List (List Char × Option (List Char))) (k : List Char)
    (v : Option (List Char)) :
    (k, v) ∈ retainDepInfoEnv envConfigContains rustcEnvContains env
      ↔ (k, v) ∈ env ∧ (envConfigContains k = true ∨ rustcEnvContains k = false
          ∨ k = CARGO_ENV) := by
  unfold retainDepInfoEnv
  rw [List.mem_filter]
  simp [Bool.or_eq_true, Bool.not_eq_true', or_assoc]

/-! ## Claim C3: path classification in `translate_dep_info` -/

/-- C3: the `serialize_path` closure classifies a compiler-reported path
by first joining it to the compiler working directory and attempting
canonicalization; a path under the target root is stored
target-root-relative with the prefix stripped; otherwise a path under the
package root is dropped when package-relative tracking is off and stored
package-root-relative otherwise; any other path is stored
target-root-relative carrying the absolute (joined, uncanonicalized)
path. -/
theorem c3_serialize_path_classification
    (canon : FsPath → Option FsPath) (rustc_cwd pkg_root target_root : FsPath)
    (allow_package : Bool) (file : FsPath) :
    (∀ st, FsPath.stripPrefix ((canon (rustc_cwd.join file)).getD (rustc_cwd.join file))
          target_root = some st →
        serialize_path canon rustc_cwd pkg_root target_root allow_package file
          = some (DepInfoPathType.TargetRootRelative, st))
    ∧ (FsPath.stripPrefix ((canon (rustc_cwd.join file)).getD (rustc_cwd.join file))
          target_root = none →
       ∀ st, FsPath.stripPrefix ((canon (rustc_cwd.join file)).getD (rustc_cwd.join file))
          pkg_root = some st →
        serialize_path canon rustc_cwd pkg_root target_root allow_package file
          = if allow_package then some (DepInfoPathType.PackageRootRelative, st)
            else none)
    ∧ (FsPath.stripPrefix ((canon (rustc_cwd.join file)).getD (rustc_cwd.join file))
          target_root = none →
       FsPath.stripPrefix ((canon (rustc_cwd.join file)).getD (rustc_cwd.join file))
          pkg_root = none →
        serialize_path canon rustc_cwd pkg_root target_root allow_package file
          = some (DepInfoPathType.TargetRootRelative, rustc_cwd.join file)) := by
  refine ⟨?_, ?_, ?_⟩
  · intro st h
    simp only [serialize_path]
    rw [h]
  · intro h st h2
    simp only [serialize_path]
    rw [h, h2]
    cases allow_package <;> simp
  · intro h h2
    simp only [serialize_path]
    rw [h, h2]

/-- Closed instance of the C3 classification, exercised on concrete
paths for each branch. -/
theorem c3_serialize_path_classification_witness :
    (serialize_path (fun _ => none) ⟨true, ["w"]⟩ ⟨true, ["p"]⟩ ⟨true, ["t"]⟩ true
        ⟨true, ["t", "a"]⟩ = some (DepInfoPathType.TargetRootRelative, ⟨false, ["a"]⟩))
    ∧ (serialize_path (fun _ => none) ⟨true, ["w"]⟩ ⟨true, ["p"]⟩ ⟨true, ["t"]⟩ false
        ⟨true, ["p", "b"]⟩ = none)
    ∧ (serialize_path (fun _ => none) ⟨true, ["w"]⟩ ⟨true, ["p"]⟩ ⟨true, ["t"]⟩ true
        ⟨false, ["c"]⟩ = some (DepInfoPathType.TargetRootRelative, ⟨true, ["w", "c"]⟩)) := by
  refine ⟨?_, ?_, ?_⟩
  · exact (c3_serialize_path_classification (fun _ => none) ⟨true, ["w"]⟩ ⟨true, ["p"]⟩
      ⟨true, ["t"]⟩ true ⟨true, ["t", "a"]⟩).1 ⟨false, ["a"]⟩ (by decide)
  · have h := (c3_serialize_path_classification (fun _ => none) ⟨true, ["w"]⟩ ⟨true, ["p"]⟩
      ⟨true, ["t"]⟩ false ⟨true, ["p", "b"]⟩).2.1 (by decide) ⟨false, ["b"]⟩ (by decide)
    simpa using h
  · exact (c3_serialize_path_classification (fun _ => none) ⟨true, ["w"]⟩ ⟨true, ["p"]⟩
      ⟨true, ["t"]⟩ true ⟨false, ["c"]⟩).2.2 (by decide) (by decide)

/-! ## Claim C9: environment-text unescaping -/

/-- Failure predicate written after the specification's wording, for
comparison with the code: the escape scan finds a backslash followed by a
character other than backslash, `n`, `r`, or a trailing backslash with
nothing after it. -/
def specBadEscape : List Char → Bool
  | [] => false
  | c :: s =>
    if c = '\\' then
      match s with
      | [] => true
      | c2 :: s2 => if c2 = '\\' ∨ c2 = 'n' ∨ c2 = 'r' then specBadEscape s2 else true
    else specBadEscape s

/-- Unescaping passes a non-backslash character through. -/
theorem unescape_env_plain (c : Char) (s : List Char) (h : c ≠ '\\') :
    unescape_env (c :: s) = (unescape_env s).map (fun t => c :: t) := by
  rw [unescape_env.eq_def]
  simp [h]

/-- Unescaping maps an escaped backslash to a backslash. -/
theorem unescape_env_bs (s : List Char) :
    unescape_env ('\\' :: '\\' :: s) = (unescape_env s).map (fun t => '\\' :: t) := by
  simp [unescape_env]

/-- Unescaping maps the `n` escape to a newline. -/
theorem unescape_env_nl (s : List Char) :
    unescape_env ('\\' :: 'n' :: s) = (unescape_env s).map (fun t => '\n' :: t) := by
  simp [unescape_env]

/-- Unescaping maps the `r` escape to a carriage return. -/
theorem unescape_env_cr (s : List Char) :
    unescape_env ('\\' :: 'r' :: s) = (unescape_env s).map (fun t => '\r' :: t) := by
  simp [unescape_env]

/-- Any other escaped character is an unknown-escape error. -/
theorem unescape_env_unknown (c : Char) (s : List Char)
    (h1 : c ≠ '\\') (h2 : c ≠ 'n') (h3 : c ≠ 'r') :
    unescape_env ('\\' :: c :: s) = .error (.unknownEscape c) := by
  rw [unescape_env.eq_def]
  simp only [if_neg (by simp : ¬('\\' ≠ '\\'))]

/-- A trailing backslash is an unterminated-escape error. -/
theorem unescape_env_trailing : unescape_env ['\\'] = .error .unterminatedEscape := by
  simp [unescape_env]

/-- An `Except.map` errs exactly when its argument errs. -/
theorem except_map_error_iff {e a b : Type} (f : a → b) (x : Except e a) :
    (∃ err, x.map f = .error err) ↔ (∃ err, x = .error err) := by
  cases x <;> simp [Except.map]

/-- The unescaper errs exactly on the inputs the specification
describes. -/
theorem unescape_env_error_iff (s : List Char) :
    (∃ e, unescape_env s = .error e) ↔ specBadEscape s = true := by
  induction s using specBadEscape.induct with
  | case1 =>
    simp [unescape_env, specBadEscape]
  | case2 =>
    simp [unescape_env_trailing, specBadEscape]
  | case3 c2 s2 hc ih =>
    have hspec : specBadEscape ('\\' :: c2 :: s2) = specBadEscape s2 := by
      rw [specBadEscape.eq_def]
      simp [hc]
    rw [hspec, ← ih]
    rcases hc with rfl | rfl | rfl
    · rw [unescape_env_bs]
      exact except_map_error_iff _ _
    · rw [unescape_env_nl]
      exact except_map_error_iff _ _
    · rw [unescape_env_cr]
      exact except_map_error_iff _ _
  | case4 c2 s2 hc =>
    push_neg at hc
    rw [unescape_env_unknown c2 s2 hc.1 hc.2.1 hc.2.2]
    have hspec : specBadEscape ('\\' :: c2 :: s2) = true := by
      rw [specBadEscape.eq_def]
      simp only [if_pos rfl]
      simp [hc.1, hc.2.1, hc.2.2]
    rw [hspec]
    simp
  | case5 c s hc ih =>
    rw [unescape_env_plain c s hc]
    have hspec : specBadEscape (c :: s) = specBadEscape s := by
      rw [specBadEscape.eq_def]
      simp [hc]
    rw [hspec, ← ih]
    exact except_map_error_iff _ _

/-- C9: the unescaper maps the two-character escapes for backslash,
newline and carriage return to their characters, passes any other
non-backslash character through, and fails with a malformed-escape error
exactly when a backslash is followed by any other character or ends the
input. -/
theorem c9_unescape_env_correct :
    unescape_env [] = .ok []
    ∧ (∀ c s, c ≠ '\\' → unescape_env (c :: s) = (unescape_env s).map (fun t => c :: t))
    ∧ (∀ s, unescape_env ('\\' :: '\\' :: s) = (unescape_env s).map (fun t => '\\' :: t))
    ∧ (∀ s, unescape_env ('\\' :: 'n' :: s) = (unescape_env s).map (fun t => '\n' :: t))
    ∧ (∀ s, unescape_env ('\\' :: 'r' :: s) = (unescape_env s).map (fun t => '\r' :: t))
    ∧ (∀ c s, c ≠ '\\' → c ≠ 'n' → c ≠ 'r' →
        unescape_env ('\\' :: c :: s) = .error (.unknownEscape c))
    ∧ unescape_env ['\\'] = .error .unterminatedEscape
    ∧ (∀ s, (∃ e, unescape_env s = .error e) ↔ specBadEscape s = true) :=
  ⟨rfl, unescape_env_plain, unescape_env_bs, unescape_env_nl, unescape_env_cr,
   unescape_env_unknown, unescape_env_trailing, unescape_env_error_iff⟩

/-- Closed instance of C9 at concrete inputs. -/
theorem c9_unescape_env_correct_witness :
    unescape_env ['x'] = .ok ['x']
    ∧ unescape_env ['\\', 'q'] = .error (.unknownEscape 'q') := by
  have h := c9_unescape_env_correct
  constructor
  · rw [h.2.1 'x' [] (by decide), h.1]
    rfl
  · exact h.2.2.2.2.2.1 'q' [] (by decide) (by decide) (by decide)

/-! ## Claim C6: backslash continuations on the dependency line -/

/-- The continuation loop only ever fails with the trailing-backslash
error. -/
theorem absorbToken_error (file : List Char) (toks : List (List Char))
    (e : DepParseError) (h : absorbToken file toks = .error e) :
    e = .trailingBackslash := by
  induction toks generalizing file with
  | nil =>
    rw [absorbToken] at h
    split_ifs at h
    simp only [Except.error.injEq] at h
    exact h.symm
  | cons t rest ih =>
    rw [absorbToken] at h
    split_ifs at h
    exact ih _ h

/-- The token collector only ever fails with the trailing-backslash
error. -/
theorem collectFiles_error (toks : List (List Char)) (e : DepParseError)
    (h : collectFiles toks = .error e) : e = .trailingBackslash := by
  have H : ∀ n toks e, toks.length ≤ n → collectFiles toks = .error e →
      e = DepParseError.trailingBackslash := by
    intro n
    induction n with
    | zero =>
      intro toks e hlen h
      match toks, hlen with
      | [], _ =>
        rw [collectFiles] at h
        cases h
    | succ n ih =>
      intro toks e hlen h
      match toks with
      | [] =>
        rw [collectFiles] at h
        cases h
      | s :: rest =>
        rw [collectFiles] at h
        split at h
        · rename_i e2 habs
          cases h
          exact absorbToken_error s rest _ habs
        · rename_i file rest1 habs
          split at h
          · rename_i e2 hcol
            cases h
            have hlen2 := absorbToken_ok_length s rest file rest1 habs
            exact ih rest1 _ (by simp only [List.length_cons] at hlen; omega) hcol
          · cases h
  exact H toks.length toks e le_rfl h

/-- C6: a token ending in a backslash absorbs the next token with the
backslash replaced by a single space, repeatedly while the result still
ends in a backslash; a token ending in a backslash with no successor is
the trailing-backslash error, and that error is the only failure the
dependency-line tokens can produce. -/
theorem c6_continuation_join :
    (∀ file t rest, file.getLast? = some '\\' →
        absorbToken file (t :: rest) = absorbToken (file.dropLast ++ ' ' :: t) rest)
    ∧ (∀ file, file.getLast? = some '\\' →
        absorbToken file [] = .error .trailingBackslash)
    ∧ (∀ file rest, file.getLast? ≠ some '\\' → absorbToken file rest = .ok (file, rest))
    ∧ (∀ toks e, collectFiles toks = .error e → e = .trailingBackslash) := by
  refine ⟨?_, ?_, ?_, collectFiles_error⟩
  · intro file t rest h
    rw [absorbToken.eq_def, if_pos h]
  · intro file h
    rw [absorbToken.eq_def, if_pos h]
  · intro file rest h
    rw [absorbToken.eq_def, if_neg h]

/-- Closed instance of C6 at concrete inputs: a token `a\` absorbs the
next token `b`, a lone trailing backslash fails, and the failure is the
trailing-backslash error. -/
theorem c6_continuation_join_witness :
    absorbToken ['a', '\\'] [['b']] = absorbToken ['a', ' ', 'b'] []
    ∧ absorbToken ['a', '\\'] [] = .error .trailingBackslash
    ∧ absorbToken ['a'] [] = .ok (['a'], [])
    ∧ DepParseError.unknownEscape 'q' ≠ .trailingBackslash := by
  have h := c6_continuation_join
  refine ⟨?_, h.2.1 ['a', '\\'] (by decide), h.2.2.1 ['a'] [] (by decide), by decide⟩
  exact h.1 ['a', '\\'] ['b'] [] (by decide)

/-! ## Claims C7 and C8: the checksum text codec -/

/-- Splitting at the first stop character: the part before it and the
part after it. -/
theorem takeWhile_dropWhile_append (l r : List Char) (x : Char)
    (hl : ∀ c ∈ l, c ≠ '=') (hx : x = '=') :
    (l ++ x :: r).takeWhile (· ≠ '=') = l
    ∧ (l ++ x :: r).dropWhile (· ≠ '=') = x :: r := by
  induction l with
  | nil =>
    subst hx
    constructor
    · rw [List.nil_append, List.takeWhile_cons_of_neg (by simp)]
    · rw [List.nil_append, List.dropWhile_cons_of_neg (by simp)]
  | cons c cs ih =>
    have hc : c ≠ '=' := hl c (List.mem_cons_self c cs)
    have ih2 := ih (fun d hd => hl d (List.mem_cons_of_mem c hd))
    constructor
    · rw [List.cons_append, List.takeWhile_cons_of_pos (by simp [hc]), ih2.1]
    · rw [List.cons_append, List.dropWhile_cons_of_pos (by simp [hc]), ih2.2]

/-- No character of an algorithm name is the separator. -/
theorem algo_str_no_eq (a : ChecksumAlgo) : ∀ c ∈ a.str, c ≠ '=' := by
  cases a <;> decide

/-- Parsing an algorithm's display name returns the algorithm. -/
theorem algo_from_str_str (a : ChecksumAlgo) :
    ChecksumAlgo.from_str a.str = .ok a := by
  cases a <;> rfl

/-- A hex digit character decodes to its value. -/
theorem hexDigit_hexDigitChar : ∀ n : Nat, n < 16 → hexDigit (hexDigitChar n) = some n := by
  decide

/-- Hex digit characters are never the separator. -/
theorem hexDigitChar_ne_eq : ∀ n : Nat, n < 16 → hexDigitChar n ≠ '=' := by
  decide

/-- Characters of a hex encoding are never the separator. -/
theorem hexEncode_no_eq (bs : List Byte) : ∀ c ∈ hexEncode bs, c ≠ '=' := by
  induction bs with
  | nil => simp [hexEncode]
  | cons b rest ih =>
    rw [hexEncode]
    intro c hc
    rcases hc with _ | ⟨_, hc2⟩
    · exact hexDigitChar_ne_eq _ (by omega)
    · rcases hc2 with _ | ⟨_, hc3⟩
      · exact hexDigitChar_ne_eq _ (Nat.mod_lt _ (by omega))
      · exact ih c hc3

/-- Length of a hex encoding. -/
theorem hexEncode_length (bs : List Byte) : (hexEncode bs).length = 2 * bs.length := by
  induction bs with
  | nil => rfl
  | cons b rest ih =>
    rw [hexEncode]
    simp only [List.length_cons, ih]
    omega

/-- Decoding a hex encoding returns the original bytes. -/
theorem hexDecodePairs_encode (bs : List Byte) : hexDecodePairs (hexEncode bs) = some bs := by
  induction bs with
  | nil => rfl
  | cons b rest ih =>
    rw [hexEncode, hexDecodePairs]
    rw [hexDigit_hexDigitChar (b.val / 16) (by omega),
      hexDigit_hexDigitChar (b.val % 16) (Nat.mod_lt _ (by omega)), ih]
    have hb : byte (16 * (b.val / 16) + b.val % 16) = b := by
      apply Fin.ext
      rw [byte_val]
      omega
    show some (byte (16 * (b.val / 16) + b.val % 16) :: rest) = some (b :: rest)
    rw [hb]

/-- Hash lengths are 32 for both algorithms. -/
theorem hash_len_eq (a : ChecksumAlgo) : a.hash_len = 32 := by
  cases a <;> rfl

/-- Hex digit characters are lowercase hex: a digit or a lowercase
letter `a`-`f`. -/
theorem hexDigitChar_lower : ∀ n : Nat, n < 16 →
    (('0' ≤ hexDigitChar n ∧ hexDigitChar n ≤ '9')
      ∨ ('a' ≤ hexDigitChar n ∧ hexDigitChar n ≤ 'f')) := by
  decide

/-- Characters of a hex encoding are lowercase hex digits. -/
theorem hexEncode_lower (bs : List Byte) : ∀ ch ∈ hexEncode bs,
    ('0' ≤ ch ∧ ch ≤ '9') ∨ ('a' ≤ ch ∧ ch ≤ 'f') := by
  induction bs with
  | nil => simp [hexEncode]
  | cons b rest ih =>
    rw [hexEncode]
    intro ch hch
    rcases hch with _ | ⟨_, hc2⟩
    · exact hexDigitChar_lower _ (by omega)
    · rcases hc2 with _ | ⟨_, hc3⟩
      · exact hexDigitChar_lower _ (Nat.mod_lt _ (by omega))
      · exact ih ch hc3

/-- C8: formatting a well-formed checksum (32-byte value buffer) and
parsing the result returns the same checksum, and the formatted text is
the algorithm name, a separator, and exactly `2 * hash_len` lowercase hex
digits. -/
theorem c8_checksum_display_roundtrip (c : Checksum) (h : c.value.length = 32) :
    Checksum.from_str (Checksum.display c) = .ok c
    ∧ Checksum.display c = c.algo.str ++ '=' :: hexEncode (c.value.take c.algo.hash_len)
    ∧ (hexEncode (c.value.take c.algo.hash_len)).length = 2 * c.algo.hash_len
    ∧ (∀ ch ∈ hexEncode (c.value.take c.algo.hash_len),
        ('0' ≤ ch ∧ ch ≤ '9') ∨ ('a' ≤ ch ∧ ch ≤ 'f')) := by
  obtain ⟨alg, val⟩ := c
  simp only [Checksum.mk.injEq] at h ⊢
  have htake : val.take alg.hash_len = val := by
    rw [hash_len_eq]
    exact List.take_of_length_le (by omega)
  refine ⟨?_, rfl, ?_, ?_⟩
  · rw [Checksum.display]
    simp only [htake]
    rw [Checksum.from_str]
    have hsplit := takeWhile_dropWhile_append alg.str (hexEncode val) '='
      (algo_str_no_eq alg) rfl
    rw [hsplit.1, hsplit.2, algo_from_str_str]
    have hsplit2 : (hexEncode val).takeWhile (· ≠ '=') = hexEncode val := by
      apply List.takeWhile_eq_self_iff.mpr
      intro ch hch
      simp [hexEncode_no_eq val ch hch]
    show (match hexDecodeTo ((hexEncode val).takeWhile (· ≠ '=')) alg.hash_len with
          | none => Except.error (InvalidChecksum.InvalidChecksum alg)
          | some v => Except.ok (Checksum.mk alg (v ++ List.replicate (32 - alg.hash_len) (byte 0))))
        = Except.ok (Checksum.mk alg val)
    rw [hsplit2, hexDecodeTo, if_pos (by rw [hexEncode_length, h, hash_len_eq]),
      hexDecodePairs_encode]
    show Except.ok (Checksum.mk alg (val ++ List.replicate (32 - alg.hash_len) (byte 0)))
      = Except.ok (Checksum.mk alg val)
    rw [hash_len_eq]
    simp
  · rw [htake, hexEncode_length, h, hash_len_eq]
  · rw [htake]
    exact hexEncode_lower val

/-- Closed instance of C8 at a concrete checksum. -/
theorem c8_checksum_display_roundtrip_witness :
    Checksum.from_str (Checksum.display ⟨ChecksumAlgo.Blake3, List.replicate 32 (byte 171)⟩)
      = .ok ⟨ChecksumAlgo.Blake3, List.replicate 32 (byte 171)⟩ :=
  (c8_checksum_display_roundtrip ⟨ChecksumAlgo.Blake3, List.replicate 32 (byte 171)⟩
    (by simp)).1

/-- A string of valid hex digits of even length decodes. -/
theorem hexDecodePairs_isSome : ∀ (t : List Char), (∀ c ∈ t, (hexDigit c).isSome) →
    t.length % 2 = 0 → ∃ v, hexDecodePairs t = some v
  | [], _, _ => ⟨[], rfl⟩
  | [c], _, he => by simp at he
  | c1 :: c2 :: rest, hd, he => by
    obtain ⟨h1, hh1⟩ := Option.isSome_iff_exists.mp (hd c1 (by simp))
    obtain ⟨h2, hh2⟩ := Option.isSome_iff_exists.mp (hd c2 (by simp))
    obtain ⟨v, hv⟩ := hexDecodePairs_isSome rest (fun c hc => hd c (by simp [hc]))
      (by simp only [List.length_cons] at he; omega)
    rw [hexDecodePairs, hh1, hh2, hv]
    exact ⟨_, rfl⟩

/-- A valid hex digit is not the separator. -/
theorem hexDigit_isSome_ne_eq (c : Char) (h : (hexDigit c).isSome) : c ≠ '=' := by
  intro he
  subst he
  simp [show hexDigit '=' = none from by decide] at h

/-- C7: checksum text parsing reports `InvalidChecksumAlgo` when the
algorithm-name portion names neither supported algorithm, `InvalidFormat`
when the separator structure is absent, `InvalidChecksum` with the
algorithm when the hex portion does not decode to exactly `hash_len`
bytes, and succeeds on every well-formed input. -/
theorem c7_checksum_from_str_errors :
    (∀ s, s.takeWhile (· ≠ '=') ≠ "sha256".toList →
        s.takeWhile (· ≠ '=') ≠ "blake3".toList →
        Checksum.from_str s = .error .InvalidChecksumAlgo)
    ∧ (∀ s, (s = "sha256".toList ∨ s = "blake3".toList) →
        Checksum.from_str s = .error .InvalidFormat)
    ∧ (∀ (a : ChecksumAlgo) (t : List Char), (∀ c ∈ t, c ≠ '=') →
        hexDecodeTo t a.hash_len = none →
        Checksum.from_str (a.str ++ '=' :: t) = .error (.InvalidChecksum a))
    ∧ (∀ (a : ChecksumAlgo) (t : List Char), t.length = 2 * a.hash_len →
        (∀ c ∈ t, (hexDigit c).isSome) →
        ∃ ck, Checksum.from_str (a.str ++ '=' :: t) = .ok ck) := by
  refine ⟨?_, ?_, ?_, ?_⟩
  · intro s h1 h2
    rw [Checksum.from_str, ChecksumAlgo.from_str, if_neg h1, if_neg h2]
  · intro s hs
    rcases hs with rfl | rfl <;> rfl
  · intro a t hne hdec
    have hsplit := takeWhile_dropWhile_append a.str t '=' (algo_str_no_eq a) rfl
    rw [Checksum.from_str, hsplit.1, hsplit.2, algo_from_str_str]
    have ht : t.takeWhile (· ≠ '=') = t := by
      apply List.takeWhile_eq_self_iff.mpr
      intro ch hch
      simp [hne ch hch]
    show (match hexDecodeTo (t.takeWhile (· ≠ '=')) a.hash_len with
          | none => Except.error (InvalidChecksum.InvalidChecksum a)
          | some v => Except.ok (Checksum.mk a (v ++ List.replicate (32 - a.hash_len) (byte 0))))
        = Except.error (InvalidChecksum.InvalidChecksum a)
    rw [ht, hdec]
  · intro a t hlen hdig
    have hne : ∀ c ∈ t, c ≠ '=' := fun c hc => hexDigit_isSome_ne_eq c (hdig c hc)
    obtain ⟨v, hv⟩ := hexDecodePairs_isSome t hdig (by omega)
    have hsplit := takeWhile_dropWhile_append a.str t '=' (algo_str_no_eq a) rfl
    rw [Checksum.from_str, hsplit.1, hsplit.2, algo_from_str_str]
    have ht : t.takeWhile (· ≠ '=') = t := by
      apply List.takeWhile_eq_self_iff.mpr
      intro ch hch
      simp [hne ch hch]
    show ∃ ck, (match hexDecodeTo (t.takeWhile (· ≠ '=')) a.hash_len with
          | none => Except.error (InvalidChecksum.InvalidChecksum a)
          | some v => Except.ok (Checksum.mk a (v ++ List.replicate (32 - a.hash_len) (byte 0))))
        = Except.ok ck
    rw [ht, hexDecodeTo, if_pos hlen, hv]
    exact ⟨_, rfl⟩

/-- Closed instance of C7: each error case and the success case at a
concrete input. -/
theorem c7_checksum_from_str_errors_witness :
    Checksum.from_str "sha255=00".toList = .error .InvalidChecksumAlgo
    ∧ Checksum.from_str "blake3".toList = .error .InvalidFormat
    ∧ Checksum.from_str "sha256=0g".toList = .error (.InvalidChecksum .Sha256)
    ∧ (∃ ck, Checksum.from_str ("sha256=" ++ String.mk (List.replicate 64 '0')).toList
        = .ok ck) := by
  have h := c7_checksum_from_str_errors
  refine ⟨h.1 "sha255=00".toList (by decide) (by decide),
    h.2.1 "blake3".toList (Or.inr rfl), ?_, ?_⟩
  · have := h.2.2.1 ChecksumAlgo.Sha256 "0g".toList (by decide) (by decide)
    exact this
  · have := h.2.2.2 ChecksumAlgo.Sha256 (List.replicate 64 '0') (by decide) (by decide)
    simpa using this

/-! ## Claim C5: only the first dependency line is honored -/

/-- A line that `parse_rustc_dep_info` treats as a dependency line: not
an env-dep comment, and containing the `": "` separator. -/
def isDepLine (l : List Char) : Bool :=
  !("# env-dep:".toList.isPrefixOf l) && (findColonSpace l).isSome

/-- Removes every dependency line after the first (all of them when the
flag starts as `true`), per the specification's reading of the
`found_deps` flag. -/
def dropLaterDeps : Bool → List (List Char) → List (List Char)
  | _, [] => []
  | found, l :: ls =>
    if isDepLine l then
      if found then dropLaterDeps true ls else l :: dropLaterDeps true ls
    else l :: dropLaterDeps found ls

/-- Once the flag is set, a dependency line is skipped outright. -/
theorem processLine_found_dep (ret : RustcDepInfo) (l : List Char)
    (h : isDepLine l = true) : processLine (true, ret) l = .ok (true, ret) := by
  rw [isDepLine, Bool.and_eq_true, Bool.not_eq_true'] at h
  obtain ⟨pos, hpos⟩ := Option.isSome_iff_exists.mp h.2
  unfold processLine
  rw [if_neg (by simp only [h.1]; exact Bool.false_ne_true)]
  simp only [hpos]
  simp

/-- Processing a non-dependency line leaves the flag unchanged. -/
theorem processLine_nondep_found (found : Bool) (ret : RustcDepInfo) (l : List Char)
    (h : isDepLine l = false) (st : Bool × RustcDepInfo)
    (hok : processLine (found, ret) l = .ok st) : st.1 = found := by
  unfold processLine at hok
  by_cases henv : "# env-dep:".toList.isPrefixOf l = true
  · rw [if_pos henv] at hok
    dsimp only [] at hok
    split at hok
    · cases hok
    · split at hok
      · cases hok
      · cases hok
        rfl
  · have hb : "# env-dep:".toList.isPrefixOf l = false := by
      cases hx : "# env-dep:".toList.isPrefixOf l
      · rfl
      · exact absurd hx henv
    rw [if_neg henv] at hok
    have hcs : findColonSpace l = none := by
      cases hfc : findColonSpace l with
      | none => rfl
      | some p =>
        exfalso
        have hd : isDepLine l = true := by
          rw [isDepLine, hfc, hb]
          rfl
        rw [hd] at h
        cases h
    simp only [hcs] at hok
    split at hok
    · split at hok
      · cases hok
      · split at hok
        · cases hok
          rfl
        · split at hok
          · cases hok
            rfl
          · cases hok
            rfl
    · cases hok
      rfl

/-- Processing the first dependency line sets the flag. -/
theorem processLine_dep_sets (ret : RustcDepInfo) (l : List Char)
    (st : Bool × RustcDepInfo) (h : isDepLine l = true)
    (hok : processLine (false, ret) l = .ok st) : st.1 = true := by
  rw [isDepLine, Bool.and_eq_true, Bool.not_eq_true'] at h
  obtain ⟨pos, hpos⟩ := Option.isSome_iff_exists.mp h.2
  unfold processLine at hok
  rw [if_neg (by simp only [h.1]; exact Bool.false_ne_true)] at hok
  simp only [hpos] at hok
  rw [if_neg (by exact Bool.false_ne_true)] at hok
  split at hok
  · cases hok
  · cases hok
    rfl

/-- With the flag set, dropping all later dependency lines does not
change the parse. -/
theorem parseLines_found_drop : ∀ (ls : List (List Char)) (ret : RustcDepInfo),
    parseLines true ret ls = parseLines true ret (dropLaterDeps true ls)
  | [], _ => rfl
  | l :: ls, ret => by
    by_cases hd : isDepLine l = true
    · rw [dropLaterDeps, if_pos hd, if_pos rfl]
      rw [parseLines, processLine_found_dep ret l hd]
      exact parseLines_found_drop ls ret
    · have hd2 : isDepLine l = false := by
        cases hx : isDepLine l
        · rfl
        · exact absurd hx hd
      rw [dropLaterDeps, if_neg (by simp [hd2])]
      rw [parseLines, parseLines]
      cases hp : processLine (true, ret) l with
      | error e => rfl
      | ok st =>
        have hst := processLine_nondep_found true ret l hd2 st hp
        show parseLines st.1 st.2 ls = parseLines st.1 st.2 (dropLaterDeps true ls)
        rw [hst]
        exact parseLines_found_drop ls st.2

/-- With the flag clear, dropping every dependency line after the first
does not change the parse. -/
theorem parseLines_first_drop : ∀ (ls : List (List Char)) (ret : RustcDepInfo),
    parseLines false ret ls = parseLines false ret (dropLaterDeps false ls)
  | [], _ => rfl
  | l :: ls, ret => by
    by_cases hd : isDepLine l = true
    · rw [dropLaterDeps, if_pos hd, if_neg (by exact Bool.false_ne_true)]
      rw [parseLines, parseLines]
      cases hp : processLine (false, ret) l with
      | error e => rfl
      | ok st =>
        have hst := processLine_dep_sets ret l st hd hp
        show parseLines st.1 st.2 ls = parseLines st.1 st.2 (dropLaterDeps true ls)
        rw [hst]
        exact parseLines_found_drop ls st.2
    · have hd2 : isDepLine l = false := by
        cases hx : isDepLine l
        · rfl
        · exact absurd hx hd
      rw [dropLaterDeps, if_neg (by simp [hd2])]
      rw [parseLines, parseLines]
      cases hp : processLine (false, ret) l with
      | error e => rfl
      | ok st =>
        have hst := processLine_nondep_found false ret l hd2 st hp
        show parseLines st.1 st.2 ls = parseLines st.1 st.2 (dropLaterDeps false ls)
        rw [hst]
        exact parseLines_first_drop ls st.2

/-- C5: the parse of a dep-info file is unchanged when every line
containing `": "` (other than an env-dep comment line) after the first
one is removed, and, once the found flag is set, a dependency line is
skipped outright. -/
theorem c5_first_dep_line_wins :
    (∀ lines, parse_rustc_dep_info lines
        = parse_rustc_dep_info (dropLaterDeps false lines))
    ∧ (∀ ret l ls, isDepLine l = true →
        parseLines true ret (l :: ls) = parseLines true ret ls) := by
  constructor
  · intro lines
    unfold parse_rustc_dep_info
    exact parseLines_first_drop lines ⟨[], []⟩
  · intro ret l ls h
    rw [parseLines, processLine_found_dep ret l h]

/-- Closed instance of C5: a second dependency line is dropped. -/
theorem c5_first_dep_line_wins_witness :
    parseLines true ⟨[], []⟩ ["u: b".toList] = parseLines true ⟨[], []⟩ []
    ∧ parse_rustc_dep_info ["t: a".toList, "u: b".toList]
      = parse_rustc_dep_info (dropLaterDeps false ["t: a".toList, "u: b".toList]) := by
  have h := c5_first_dep_line_wins
  exact ⟨h.2 ⟨[], []⟩ "u: b".toList [] (by decide), h.1 ["t: a".toList, "u: b".toList]⟩

/-! ## Supporting lemmas: the binary codec round trip -/

/-- Reading back a written `u32`. -/
theorem read_usize_write (n : Nat) (h : n < 2 ^ 32) (rest : List Byte) :
    read_usize (write_usize n ++ rest) = some (n, rest) := by
  rw [write_usize]
  simp only [List.cons_append, List.nil_append]
  rw [read_usize]
  have hv : (byte n).val + 2 ^ 8 * (byte (n / 2 ^ 8)).val
      + 2 ^ 16 * (byte (n / 2 ^ 16)).val + 2 ^ 24 * (byte (n / 2 ^ 24)).val = n := by
    simp only [byte_val]
    omega
  rw [hv]

/-- Reading back a written `u64`. -/
theorem read_u64_write (n : Nat) (h : n < 2 ^ 64) (rest : List Byte) :
    read_u64 (write_u64 n ++ rest) = some (n, rest) := by
  rw [write_u64]
  simp only [List.cons_append, List.nil_append]
  rw [read_u64]
  have hv : (byte n).val + 2 ^ 8 * (byte (n / 2 ^ 8)).val
      + 2 ^ 16 * (byte (n / 2 ^ 16)).val + 2 ^ 24 * (byte (n / 2 ^ 24)).val
      + 2 ^ 32 * (byte (n / 2 ^ 32)).val + 2 ^ 40 * (byte (n / 2 ^ 40)).val
      + 2 ^ 48 * (byte (n / 2 ^ 48)).val + 2 ^ 56 * (byte (n / 2 ^ 56)).val = n := by
    simp only [byte_val]
    omega
  rw [hv]

/-- Reading back a written boolean. -/
theorem read_bool_write (b : Bool) (rest : List Byte) :
    read_bool (write_bool b ++ rest) = some (b, rest) := by
  cases b <;> rfl

/-- Reading back a written length-prefixed byte string. -/
theorem read_bytes_write (v : List Byte) (h : v.length < 2 ^ 32) (rest : List Byte) :
    read_bytes (write_bytes v ++ rest) = (some v, rest) := by
  rw [write_bytes, List.append_assoc, read_bytes, read_usize_write v.length h (v ++ rest)]
  show (if v.length ≤ (v ++ rest).length
        then (some ((v ++ rest).take v.length), (v ++ rest).drop v.length)
        else (none, v ++ rest)) = (some v, rest)
  rw [if_pos (by simp), List.take_left, List.drop_left]

/-- Value of the zero tag byte. -/
theorem byte_zero_val : (byte 0).val = 0 := rfl

/-- Value of the one tag byte. -/
theorem byte_one_val : (byte 1).val = 1 := rfl

/-- Parsing one serialized file entry off the front. -/
theorem parseFiles_cons (k : Nat) (ty : DepInfoPathType) (path : List Byte)
    (cks : Option (Nat × List Char)) (hpath : path.length < 2 ^ 32)
    (hcks : ∀ lc, cks = some lc → lc.1 < 2 ^ 64 ∧ (utf8Encode lc.2).length < 2 ^ 32)
    (tail : List Byte) :
    parseFiles (k + 1) (serializeFile (ty, path, cks) ++ tail)
      = match parseFiles k tail with
        | none => none
        | some (fs, rest) => some ((ty, path, cks) :: fs, rest) := by
  cases cks with
  | none =>
    cases ty <;>
      (simp only [serializeFile, List.append_assoc, List.append_nil, List.cons_append,
        List.nil_append]
       rw [parseFiles, read_u8]
       simp only [Option.isSome_none, byte_zero_val, byte_one_val,
         read_bytes_write path hpath, read_bool_write, Bool.false_eq_true, if_false])
  | some lc =>
    obtain ⟨len, cs⟩ := lc
    obtain ⟨hlen, hcslen⟩ := hcks (len, cs) rfl
    cases ty <;>
      (simp only [serializeFile, List.append_assoc, List.append_nil, List.cons_append,
        List.nil_append]
       rw [parseFiles, read_u8]
       simp only [Option.isSome_some, byte_zero_val, byte_one_val,
         read_bytes_write path hpath, read_bool_write, eq_self_iff_true, if_true,
         read_u64_write len hlen, read_bytes_write (utf8Encode cs) hcslen,
         utf8Decode_encode])

/-- Parsing one serialized environment entry off the front. -/
theorem parseEnv_cons (k : Nat) (key : List Char) (val : Option (List Char))
    (hkey : (utf8Encode key).length < 2 ^ 32)
    (hval : ∀ v, val = some v → (utf8Encode v).length < 2 ^ 32)
    (tail : List Byte) :
    parseEnv (k + 1) (serializeEnvPair (key, val) ++ tail)
      = match parseEnv k tail with
        | none => none
        | some (env, rest) => some ((key, val) :: env, rest) := by
  cases val with
  | none =>
    simp only [serializeEnvPair, List.append_assoc, List.append_nil, List.cons_append,
      List.nil_append]
    rw [parseEnv]
    simp only [read_bytes_write (utf8Encode key) hkey, utf8Decode_encode, read_u8,
      byte_zero_val]
  | some v =>
    simp only [serializeEnvPair, List.append_assoc, List.append_nil, List.cons_append,
      List.nil_append]
    rw [parseEnv]
    simp only [read_bytes_write (utf8Encode key) hkey, utf8Decode_encode, read_u8,
      byte_one_val, read_bytes_write (utf8Encode v) (hval v rfl)]

/-- Parsing back a serialized file-entry list. -/
theorem parseFiles_serialize :
    ∀ (fs : List (DepInfoPathType × List Byte × Option (Nat × List Char))),
    (∀ e ∈ fs, e.2.1.length < 2 ^ 32
      ∧ ∀ lc, e.2.2 = some lc → lc.1 < 2 ^ 64 ∧ (utf8Encode lc.2).length < 2 ^ 32) →
    ∀ rest, parseFiles fs.length ((fs.map serializeFile).flatten ++ rest) = some (fs, rest)
  | [], _, rest => by
    simp only [List.map_nil, List.flatten_nil, List.nil_append, List.length_nil]
    rfl
  | e :: fs, hwf, rest => by
    obtain ⟨ty, path, cks⟩ := e
    have h1 := hwf _ (List.mem_cons_self _ _)
    rw [List.map_cons, List.flatten_cons, List.length_cons, List.append_assoc]
    rw [parseFiles_cons fs.length ty path cks h1.1 h1.2]
    rw [parseFiles_serialize fs (fun x hx => hwf x (List.mem_cons_of_mem _ hx)) rest]

/-- Parsing back a serialized environment list. -/
theorem parseEnv_serialize :
    ∀ (env : List (List Char × Option (List Char))),
    (∀ kv ∈ env, (utf8Encode kv.1).length < 2 ^ 32
      ∧ ∀ v, kv.2 = some v → (utf8Encode v).length < 2 ^ 32) →
    ∀ rest, parseEnv env.length ((env.map serializeEnvPair).flatten ++ rest)
      = some (env, rest)
  | [], _, rest => by
    simp only [List.map_nil, List.flatten_nil, List.nil_append, List.length_nil]
    rfl
  | kv :: env, hwf, rest => by
    obtain ⟨key, val⟩ := kv
    have h1 := hwf _ (List.mem_cons_self _ _)
    rw [List.map_cons, List.flatten_cons, List.length_cons, List.append_assoc]
    rw [parseEnv_cons env.length key val h1.1 h1.2]
    rw [parseEnv_serialize env (fun x hx => hwf x (List.mem_cons_of_mem _ hx)) rest]

/-! ## Claim C2: binary round trip -/

/-- Well-formedness of an `EncodedDepInfo` record for serialization: the
counts and every field's byte length fit in a `u32`, and file lengths fit
in a `u64` (in the source these bounds hold by the types `usize`, `u32`
and `u64`). -/
def EncodedDepInfo.WF (r : EncodedDepInfo) : Prop :=
  r.files.length < 2 ^ 32 ∧ r.env.length < 2 ^ 32
  ∧ (∀ e ∈ r.files, e.2.1.length < 2 ^ 32
      ∧ ∀ lc, e.2.2 = some lc → lc.1 < 2 ^ 64 ∧ (utf8Encode lc.2).length < 2 ^ 32)
  ∧ (∀ kv ∈ r.env, (utf8Encode kv.1).length < 2 ^ 32
      ∧ ∀ v, kv.2 = some v → (utf8Encode v).length < 2 ^ 32)

/-- C2: decoding the serialization of any well-formed record returns
exactly the original record, preserving order, path kinds, optional
checksums and optional environment values. -/
theorem c2_parse_serialize_roundtrip (r : EncodedDepInfo) (h : r.WF) :
    EncodedDepInfo.parse r.serialize = some r := by
  obtain ⟨files, env⟩ := r
  obtain ⟨hnf, hne, hf, he⟩ := h
  rw [EncodedDepInfo.serialize, EncodedDepInfo.parse]
  simp only [List.append_assoc]
  rw [read_usize_write _ hnf]
  simp only []
  rw [parseFiles_serialize files hf]
  simp only []
  rw [read_usize_write _ hne]
  simp only []
  rw [show (List.map serializeEnvPair env).flatten
      = (List.map serializeEnvPair env).flatten ++ [] from (List.append_nil _).symm]
  rw [parseEnv_serialize env he []]

/-- Closed instance of C2 at a concrete record with one checksummed file
and two environment entries. -/
theorem c2_parse_serialize_roundtrip_witness :
    EncodedDepInfo.parse
        (EncodedDepInfo.serialize
          ⟨[(DepInfoPathType.TargetRootRelative, [byte 97], some (5, ['a']))],
           [(['K'], some ['v']), ([], none)]⟩)
      = some ⟨[(DepInfoPathType.TargetRootRelative, [byte 97], some (5, ['a']))],
           [(['K'], some ['v']), ([], none)]⟩ := by
  apply c2_parse_serialize_roundtrip
  refine ⟨by decide, by decide, ?_, ?_⟩
  · intro e he
    simp only [List.mem_singleton] at he
    subst he
    refine ⟨by decide, ?_⟩
    intro lc hlc
    cases hlc
    exact ⟨by decide, by decide⟩
  · intro kv hkv
    simp only [List.mem_cons, List.mem_singleton, List.not_mem_nil] at hkv
    rcases hkv with rfl | rfl | hf
    · refine ⟨by decide, ?_⟩
      intro v hv
      cases hv
      decide
    · refine ⟨by decide, ?_⟩
      intro v hv
      cases hv
    · exact absurd hf (by simp)

/-! ## Claim C10: asymmetric presence bytes -/

/-- The byte `0xFF` is not valid UTF-8. -/
theorem utf8Decode_ff : utf8Decode [byte 255] = none := by
  rw [utf8Decode]
  rfl

/-- Reading a raw presence byte. -/
theorem read_bool_cons (b : Byte) (rest : List Byte) :
    read_bool (b :: rest) = some (b.val != 0, rest) := rfl

/-- C10: any non-zero `has_checksum` byte is accepted as "checksum
present"; an env `has_value` byte other than `0` or `1` invalidates the
whole record; and a present-but-invalid-UTF-8 checksum text keeps the
file entry with no checksum information instead of failing the decode. -/
theorem c10_presence_bytes_asymmetric :
    (∀ b : Byte, b.val ≠ 0 →
      EncodedDepInfo.parse (write_usize 1 ++ [byte 1] ++ write_bytes [byte 65] ++ [b]
          ++ write_u64 5 ++ write_bytes (utf8Encode ['a']) ++ write_usize 0)
        = some ⟨[(DepInfoPathType.TargetRootRelative, [byte 65], some (5, ['a']))], []⟩)
    ∧ (∀ b : Byte, 2 ≤ b.val →
      EncodedDepInfo.parse (write_usize 0 ++ write_usize 1
          ++ write_bytes (utf8Encode ['k']) ++ [b] ++ write_bytes (utf8Encode ['v']))
        = none)
    ∧ EncodedDepInfo.parse (write_usize 1 ++ [byte 1] ++ write_bytes [byte 65] ++ [byte 1]
          ++ write_u64 5 ++ write_bytes [byte 255] ++ write_usize 0)
      = some ⟨[(DepInfoPathType.TargetRootRelative, [byte 65], none)], []⟩ := by
  refine ⟨?_, ?_, ?_⟩
  · intro b hb
    rw [EncodedDepInfo.parse]
    simp only [List.append_assoc, List.cons_append, List.nil_append]
    rw [read_usize_write 1 (by norm_num)]
    simp only []
    rw [parseFiles]
    simp only [read_u8, byte_one_val]
    rw [read_bytes_write [byte 65] (by norm_num)]
    simp only [read_bool_cons]
    have hbne : (b.val != 0) = true := by
      simp [hb]
    rw [hbne]
    simp only [if_true]
    rw [read_u64_write 5 (by norm_num)]
    simp only []
    rw [read_bytes_write (utf8Encode ['a']) (by decide)]
    simp only [utf8Decode_encode]
    simp only [parseFiles]
    rw [show write_usize 0 = write_usize 0 ++ ([] : List Byte) from (List.append_nil _).symm,
      read_usize_write 0 (by norm_num)]
    simp only [parseEnv]
  · intro b hb
    rw [EncodedDepInfo.parse]
    simp only [List.append_assoc, List.cons_append, List.nil_append]
    rw [read_usize_write 0 (by norm_num)]
    simp only [parseFiles]
    rw [read_usize_write 1 (by norm_num)]
    simp only []
    rw [parseEnv]
    rw [show write_bytes (utf8Encode ['k']) ++ b :: write_bytes (utf8Encode ['v'])
        = write_bytes (utf8Encode ['k']) ++ (b :: write_bytes (utf8Encode ['v'])) from rfl]
    rw [read_bytes_write (utf8Encode ['k']) (by decide)]
    simp only [utf8Decode_encode]
    simp only [read_u8]
    obtain ⟨m, hm⟩ : ∃ m, b.val = m + 2 := ⟨b.val - 2, by omega⟩
    rw [hm]
    rfl
  · rw [EncodedDepInfo.parse]
    simp only [List.append_assoc, List.cons_append, List.nil_append]
    rw [read_usize_write 1 (by norm_num)]
    simp only []
    rw [parseFiles]
    simp only [read_u8, byte_one_val]
    rw [read_bytes_write [byte 65] (by norm_num)]
    simp only [read_bool_cons]
    rw [show ((byte 1).val != 0) = true from rfl]
    simp only [if_true]
    rw [read_u64_write 5 (by norm_num)]
    simp only []
    rw [read_bytes_write [byte 255] (by norm_num)]
    simp only [utf8Decode_ff]
    simp only [parseFiles]
    rw [show write_usize 0 = write_usize 0 ++ ([] : List Byte) from (List.append_nil _).symm,
      read_usize_write 0 (by norm_num)]
    simp only [parseEnv]

/-- Closed instance of C10 at concrete presence bytes `7` and `2`. -/
theorem c10_presence_bytes_asymmetric_witness :
    EncodedDepInfo.parse (write_usize 1 ++ [byte 1] ++ write_bytes [byte 65] ++ [byte 7]
        ++ write_u64 5 ++ write_bytes (utf8Encode ['a']) ++ write_usize 0)
      = some ⟨[(DepInfoPathType.TargetRootRelative, [byte 65], some (5, ['a']))], []⟩
    ∧ EncodedDepInfo.parse (write_usize 0 ++ write_usize 1
        ++ write_bytes (utf8Encode ['k']) ++ [byte 2] ++ write_bytes (utf8Encode ['v']))
      = none := by
  have h := c10_presence_bytes_asymmetric
  exact ⟨h.1 (byte 7) (by decide), h.2.1 (byte 2) (by decide)⟩

/-! ## Supporting lemmas: truncated reads -/

/-- A `u32` read fails on fewer than four bytes. -/
theorem read_usize_short (l : List Byte) (h : l.length < 4) : read_usize l = none := by
  match l, h with
  | [], _ => rfl
  | [a], _ => rfl
  | [a, b], _ => rfl
  | [a, b, c], _ => rfl

/-- A `u64` read fails on fewer than eight bytes. -/
theorem read_u64_short (l : List Byte) (h : l.length < 8) : read_u64 l = none := by
  match l, h with
  | [], _ => rfl
  | [a], _ => rfl
  | [a, b], _ => rfl
  | [a, b, c], _ => rfl
  | [a, b, c, d], _ => rfl
  | [a, b, c, d, e], _ => rfl
  | [a, b, c, d, e, f], _ => rfl
  | [a, b, c, d, e, f, g], _ => rfl

/-- Reading a `u32` from a truncated stream. -/
theorem read_usize_take (n : Nat) (h : n < 2 ^ 32) (rest : List Byte) (k : Nat) :
    read_usize ((write_usize n ++ rest).take k)
      = if 4 ≤ k then some (n, rest.take (k - 4)) else none := by
  rw [List.take_append_eq_append_take]
  by_cases hk : 4 ≤ k
  · rw [if_pos hk]
    rw [List.take_of_length_le (by rw [write_usize]; simp; omega)]
    rw [show (write_usize n).length = 4 from rfl]
    exact read_usize_write n h _
  · rw [if_neg hk]
    apply read_usize_short
    rw [show (write_usize n).length = 4 from rfl]
    simp only [List.length_append, List.length_take]
    rw [write_usize]
    simp only [List.length_cons, List.length_nil]
    omega

/-- Reading a `u64` from a truncated stream. -/
theorem read_u64_take (n : Nat) (h : n < 2 ^ 64) (rest : List Byte) (k : Nat) :
    read_u64 ((write_u64 n ++ rest).take k)
      = if 8 ≤ k then some (n, rest.take (k - 8)) else none := by
  rw [List.take_append_eq_append_take]
  by_cases hk : 8 ≤ k
  · rw [if_pos hk]
    rw [List.take_of_length_le (by rw [write_u64]; simp; omega)]
    rw [show (write_u64 n).length = 8 from rfl]
    exact read_u64_write n h _
  · rw [if_neg hk]
    apply read_u64_short
    rw [show (write_u64 n).length = 8 from rfl]
    simp only [List.length_append, List.length_take]
    rw [write_u64]
    simp only [List.length_cons, List.length_nil]
    omega

/-- Reading a byte from a truncated stream. -/
theorem read_u8_take (b : Byte) (rest : List Byte) (k : Nat) :
    read_u8 ((b :: rest).take k)
      = if 1 ≤ k then some (b, rest.take (k - 1)) else none := by
  cases k with
  | zero => rfl
  | succ m =>
    rw [List.take_succ_cons, if_pos (by omega)]
    rfl

/-- Reading a presence byte from a truncated stream. -/
theorem read_bool_take (b : Bool) (rest : List Byte) (k : Nat) :
    read_bool ((write_bool b ++ rest).take k)
      = if 1 ≤ k then some (b, rest.take (k - 1)) else none := by
  cases k with
  | zero => cases b <;> rfl
  | succ m =>
    rw [if_pos (by omega)]
    cases b <;> rfl

/-- Reading a length-prefixed byte string from a stream truncated past
it. -/
theorem read_bytes_take_ok (v : List Byte) (h : v.length < 2 ^ 32) (rest : List Byte)
    (k : Nat) (hk : 4 + v.length ≤ k) :
    read_bytes ((write_bytes v ++ rest).take k)
      = (some v, rest.take (k - (4 + v.length))) := by
  rw [write_bytes, List.append_assoc, read_bytes, read_usize_take v.length h _ k,
    if_pos (by omega)]
  show (if v.length ≤ ((v ++ rest).take (k - 4)).length
        then (some (((v ++ rest).take (k - 4)).take v.length),
          ((v ++ rest).take (k - 4)).drop v.length)
        else (none, (v ++ rest).take (k - 4))) = _
  rw [if_pos (by simp only [List.length_take, List.length_append]; omega)]
  rw [List.take_take, min_eq_left (by omega), List.take_left]
  rw [List.drop_take, List.drop_left]
  have : k - 4 - v.length = k - (4 + v.length) := by omega
  rw [this]

/-- Reading a length-prefixed byte string from a stream truncated inside
it yields no value. -/
theorem read_bytes_take_fail (v : List Byte) (h : v.length < 2 ^ 32) (rest : List Byte)
    (k : Nat) (hk : k < 4 + v.length) :
    (read_bytes ((write_bytes v ++ rest).take k)).1 = none := by
  rw [write_bytes, List.append_assoc, read_bytes, read_usize_take v.length h _ k]
  by_cases h4 : 4 ≤ k
  · rw [if_pos h4]
    show (if v.length ≤ ((v ++ rest).take (k - 4)).length
          then (some (((v ++ rest).take (k - 4)).take v.length),
            ((v ++ rest).take (k - 4)).drop v.length)
          else (none, (v ++ rest).take (k - 4))).1 = none
    rw [if_neg (by simp only [List.length_take, List.length_append]; omega)]
  · rw [if_neg h4]

/-- Length of a written `u32`. -/
theorem write_usize_length (n : Nat) : (write_usize n).length = 4 := rfl

/-- Length of a written boolean. -/
theorem write_bool_length (b : Bool) : (write_bool b).length = 1 := by
  cases b <;> rfl

/-- Length of a written byte string. -/
theorem write_bytes_length (v : List Byte) : (write_bytes v).length = 4 + v.length := by
  rw [write_bytes]
  simp [write_usize_length]

/-- Parsing a checksum-free file-entry list from a truncated stream:
success exactly when the truncation point lies past the entries. -/
theorem parseFiles_take_nock :
    ∀ (fs : List (DepInfoPathType × List Byte × Option (Nat × List Char))),
    (∀ e ∈ fs, e.2.1.length < 2 ^ 32) → (∀ e ∈ fs, e.2.2 = none) →
    ∀ (tail : List Byte) (k : Nat),
    parseFiles fs.length (((fs.map serializeFile).flatten ++ tail).take k)
      = if (fs.map serializeFile).flatten.length ≤ k
        then some (fs, tail.take (k - (fs.map serializeFile).flatten.length))
        else none
  | [], _, _, tail, k => by
    simp only [List.map_nil, List.flatten_nil, List.nil_append, List.length_nil]
    rw [if_pos (by omega), parseFiles, Nat.sub_zero]
  | e :: fs, hwfp, hnc, tail, k => by
    obtain ⟨ty, path, cks⟩ := e
    have hcknone : cks = none := hnc _ (List.mem_cons_self _ _)
    subst hcknone
    have hp : path.length < 2 ^ 32 := hwfp _ (List.mem_cons_self _ _)
    have ih := parseFiles_take_nock fs (fun x hx => hwfp x (List.mem_cons_of_mem _ hx))
      (fun x hx => hnc x (List.mem_cons_of_mem _ hx)) tail
    rw [List.map_cons, List.flatten_cons, List.length_cons]
    cases ty <;>
    · simp only [serializeFile, Option.isSome_none, List.append_assoc, List.append_nil,
        List.cons_append, List.nil_append]
      rw [parseFiles, read_u8_take]
      by_cases h1 : 1 ≤ k
      · rw [if_pos h1]
        simp only [byte_zero_val, byte_one_val]
        by_cases h2 : 4 + path.length ≤ k - 1
        · rw [read_bytes_take_ok path hp _ _ h2]
          simp only []
          rw [read_bool_take false _ _]
          by_cases h3 : 1 ≤ k - 1 - (4 + path.length)
          · rw [if_pos h3]
            simp only [Bool.false_eq_true, if_false]
            rw [ih]
            simp only [List.length_append, List.length_cons, write_bytes_length,
              write_bool_length, List.length_nil]
            by_cases h4 : (List.map serializeFile fs).flatten.length
                ≤ k - 1 - (4 + path.length) - 1
            · rw [if_pos h4, if_pos (by omega)]
              have harith : k - 1 - (4 + path.length) - 1
                    - (List.map serializeFile fs).flatten.length
                  = k - (4 + path.length
                    + (1 + (List.map serializeFile fs).flatten.length) + 1) := by
                omega
              rw [harith]
            · rw [if_neg h4, if_neg (by omega)]
          · rw [if_neg h3]
            rw [if_neg (by
              simp only [List.length_append, List.length_cons, write_bytes_length,
                write_bool_length, List.length_nil]
              omega)]
        · have hfail := read_bytes_take_fail path hp
            (write_bool false ++ ((List.map serializeFile fs).flatten ++ tail))
            (k - 1) (by omega)
          cases hrb : read_bytes ((write_bytes path
              ++ (write_bool false ++ ((List.map serializeFile fs).flatten ++ tail))).take
              (k - 1)) with
          | mk o rem =>
            simp only [hrb] at hfail
            subst hfail
            rw [if_neg (by
              simp only [List.length_append, List.length_cons, write_bytes_length,
                write_bool_length, List.length_nil]
              omega)]
      · rw [if_neg h1]
        rw [if_neg (by
          simp only [List.length_append, List.length_cons, write_bytes_length,
            write_bool_length, List.length_nil]
          omega)]

/-- Parsing an environment list from a truncated stream: success exactly
when the truncation point lies past the entries. -/
theorem parseEnv_take :
    ∀ (env : List (List Char × Option (List Char))),
    (∀ kv ∈ env, (utf8Encode kv.1).length < 2 ^ 32
      ∧ ∀ v, kv.2 = some v → (utf8Encode v).length < 2 ^ 32) →
    ∀ (tail : List Byte) (k : Nat),
    parseEnv env.length (((env.map serializeEnvPair).flatten ++ tail).take k)
      = if (env.map serializeEnvPair).flatten.length ≤ k
        then some (env, tail.take (k - (env.map serializeEnvPair).flatten.length))
        else none
  | [], _, tail, k => by
    simp only [List.map_nil, List.flatten_nil, List.nil_append, List.length_nil]
    rw [if_pos (by omega), parseEnv, Nat.sub_zero]
  | kv :: env, hwf, tail, k => by
    obtain ⟨key, val⟩ := kv
    have hk : (utf8Encode key).length < 2 ^ 32 := (hwf _ (List.mem_cons_self _ _)).1
    have hv := (hwf _ (List.mem_cons_self _ _)).2
    have ih := parseEnv_take env (fun x hx => hwf x (List.mem_cons_of_mem _ hx)) tail
    rw [List.map_cons, List.flatten_cons, List.length_cons]
    cases val with
    | none =>
      simp only [serializeEnvPair, List.append_assoc, List.append_nil, List.cons_append,
        List.nil_append]
      rw [parseEnv]
      by_cases h2 : 4 + (utf8Encode key).length ≤ k
      · rw [read_bytes_take_ok (utf8Encode key) hk _ _ h2]
        simp only [utf8Decode_encode]
        rw [read_u8_take]
        by_cases h3 : 1 ≤ k - (4 + (utf8Encode key).length)
        · rw [if_pos h3]
          simp only [byte_zero_val]
          rw [ih]
          simp only [List.length_append, List.length_cons, write_bytes_length,
            List.length_nil]
          by_cases h4 : (List.map serializeEnvPair env).flatten.length
              ≤ k - (4 + (utf8Encode key).length) - 1
          · rw [if_pos h4, if_pos (by omega)]
            have harith : k - (4 + (utf8Encode key).length) - 1
                  - (List.map serializeEnvPair env).flatten.length
                = k - (4 + (utf8Encode key).length
                  + ((List.map serializeEnvPair env).flatten.length + 1)) := by
              omega
            rw [harith]
          · rw [if_neg h4, if_neg (by omega)]
        · rw [if_neg h3]
          rw [if_neg (by
            simp only [List.length_append, List.length_cons, write_bytes_length,
              List.length_nil]
            omega)]
      · have hfail := read_bytes_take_fail (utf8Encode key) hk
          (byte 0 :: ((List.map serializeEnvPair env).flatten ++ tail)) k (by omega)
        cases hrb : read_bytes ((write_bytes (utf8Encode key)
            ++ byte 0 :: ((List.map serializeEnvPair env).flatten ++ tail)).take k) with
        | mk o rem =>
          simp only [hrb] at hfail
          subst hfail
          rw [if_neg (by
            simp only [List.length_append, List.length_cons, write_bytes_length,
              List.length_nil]
            omega)]
    | some v =>
      have hvl : (utf8Encode v).length < 2 ^ 32 := hv v rfl
      simp only [serializeEnvPair, List.append_assoc, List.append_nil, List.cons_append,
        List.nil_append]
      rw [parseEnv]
      by_cases h2 : 4 + (utf8Encode key).length ≤ k
      · rw [read_bytes_take_ok (utf8Encode key) hk _ _ h2]
        simp only [utf8Decode_encode]
        rw [read_u8_take]
        by_cases h3 : 1 ≤ k - (4 + (utf8Encode key).length)
        · rw [if_pos h3]
          simp only [byte_one_val]
          by_cases h4 : 4 + (utf8Encode v).length ≤ k - (4 + (utf8Encode key).length) - 1
          · rw [read_bytes_take_ok (utf8Encode v) hvl _ _ h4]
            simp only [utf8Decode_encode]
            rw [ih]
            simp only [List.length_append, List.length_cons, write_bytes_length,
              List.length_nil]
            by_cases h5 : (List.map serializeEnvPair env).flatten.length
                ≤ k - (4 + (utf8Encode key).length) - 1 - (4 + (utf8Encode v).length)
            · rw [if_pos h5, if_pos (by omega)]
              have harith : k - (4 + (utf8Encode key).length) - 1
                    - (4 + (utf8Encode v).length)
                    - (List.map serializeEnvPair env).flatten.length
                  = k - (4 + (utf8Encode key).length
                    + (4 + (utf8Encode v).length
                      + (List.map serializeEnvPair env).flatten.length + 1)) := by
                omega
              rw [harith]
            · rw [if_neg h5, if_neg (by omega)]
          · have hfail := read_bytes_take_fail (utf8Encode v) hvl
              ((List.map serializeEnvPair env).flatten ++ tail)
              (k - (4 + (utf8Encode key).length) - 1) (by omega)
            cases hrb : read_bytes ((write_bytes (utf8Encode v)
                ++ ((List.map serializeEnvPair env).flatten ++ tail)).take
                (k - (4 + (utf8Encode key).length) - 1)) with
            | mk o rem =>
              simp only [hrb] at hfail
              subst hfail
              rw [if_neg (by
                simp only [List.length_append, List.length_cons, write_bytes_length,
                  List.length_nil]
                omega)]
        · rw [if_neg h3]
          rw [if_neg (by
            simp only [List.length_append, List.length_cons, write_bytes_length,
              List.length_nil]
            omega)]
      · have hfail := read_bytes_take_fail (utf8Encode key) hk
          (byte 1 :: (write_bytes (utf8Encode v)
            ++ ((List.map serializeEnvPair env).flatten ++ tail))) k (by omega)
        cases hrb : read_bytes ((write_bytes (utf8Encode key)
            ++ byte 1 :: (write_bytes (utf8Encode v)
              ++ ((List.map serializeEnvPair env).flatten ++ tail))).take k) with
        | mk o rem =>
          simp only [hrb] at hfail
          subst hfail
          rw [if_neg (by
            simp only [List.length_append, List.length_cons, write_bytes_length,
              List.length_nil]
            omega)]

/-! ## Claim C1: the decode failure contract -/

/-- Truncating the serialization of a checksum-free well-formed record
anywhere strictly inside it makes the decoder return nothing. -/
theorem parse_take_none (r : EncodedDepInfo) (h : r.WF)
    (hnc : ∀ e ∈ r.files, e.2.2 = none) (k : Nat) (hk : k < r.serialize.length) :
    EncodedDepInfo.parse (r.serialize.take k) = none := by
  obtain ⟨files, env⟩ := r
  obtain ⟨hnf, hne, hf, he⟩ := h
  rw [EncodedDepInfo.serialize] at hk ⊢
  simp only [List.append_assoc] at hk ⊢
  simp only [List.length_append, write_usize_length] at hk
  rw [EncodedDepInfo.parse]
  rw [read_usize_take _ hnf]
  by_cases h1 : 4 ≤ k
  case neg => rw [if_neg h1]
  case pos =>
    rw [if_pos h1]
    simp only []
    rw [parseFiles_take_nock files (fun e hh => (hf e hh).1) hnc _ (k - 4)]
    by_cases h2 : (files.map serializeFile).flatten.length ≤ k - 4
    case neg => rw [if_neg h2]
    case pos =>
      rw [if_pos h2]
      simp only []
      rw [read_usize_take _ hne]
      by_cases h3 : 4 ≤ k - 4 - (files.map serializeFile).flatten.length
      case neg => rw [if_neg h3]
      case pos =>
        rw [if_pos h3]
        simp only []
        have hET := parseEnv_take env he []
          (k - 4 - (files.map serializeFile).flatten.length - 4)
        rw [List.append_nil] at hET
        rw [hET]
        rw [if_neg (by omega)]

/-- C1, amended: truncation, an out-of-range length, an invalid
path-kind tag, or invalid UTF-8 in an env key or value makes the decoder
return `None` (truncation is stated for records without checksum blocks,
whose reads are all mandatory), and `parse_dep_info` returns `Ok(None)`,
never a hard error, when the file is unreadable or the decoder fails. -/
theorem c1_decode_failure_contract :
    (∀ r : EncodedDepInfo, r.WF → (∀ e ∈ r.files, e.2.2 = none) →
      ∀ k, k < r.serialize.length → EncodedDepInfo.parse (r.serialize.take k) = none)
    ∧ (∀ b : Byte, 2 ≤ b.val → ∀ rest,
        EncodedDepInfo.parse (write_usize 1 ++ b :: rest) = none)
    ∧ EncodedDepInfo.parse (write_usize 1 ++ [byte 1] ++ write_usize 5 ++ [byte 65]) = none
    ∧ EncodedDepInfo.parse (write_usize 0 ++ write_usize 1 ++ write_usize 1
        ++ [byte 255]) = none
    ∧ EncodedDepInfo.parse (write_usize 0 ++ write_usize 1 ++ write_bytes (utf8Encode ['k'])
        ++ [byte 1] ++ write_usize 1 ++ [byte 255]) = none
    ∧ (∀ pkg tgt rr, ∃ v, parse_dep_info pkg tgt rr = .ok v)
    ∧ (∀ pkg tgt, parse_dep_info pkg tgt none = .ok none)
    ∧ (∀ pkg tgt data, EncodedDepInfo.parse data = none →
        parse_dep_info pkg tgt (some data) = .ok none) := by
  refine ⟨parse_take_none, ?_, ?_, ?_, ?_, ?_, fun pkg tgt => rfl, ?_⟩
  · intro b hb rest
    rw [EncodedDepInfo.parse, read_usize_write 1 (by norm_num)]
    simp only []
    rw [parseFiles]
    simp only [read_u8]
    obtain ⟨m, hm⟩ : ∃ m, b.val = m + 2 := ⟨b.val - 2, by omega⟩
    rw [hm]
    rfl
  · rw [EncodedDepInfo.parse]
    simp only [List.append_assoc, List.cons_append, List.nil_append]
    rw [read_usize_write 1 (by norm_num)]
    simp only []
    rw [parseFiles]
    simp only [read_u8, byte_one_val]
    rw [show read_bytes (write_usize 5 ++ [byte 65]) = (none, [byte 65]) from rfl]
  · rw [EncodedDepInfo.parse]
    simp only [List.append_assoc, List.cons_append, List.nil_append]
    rw [read_usize_write 0 (by norm_num)]
    simp only [parseFiles]
    rw [read_usize_write 1 (by norm_num)]
    simp only []
    rw [parseEnv]
    rw [show read_bytes (write_usize 1 ++ [byte 255]) = (some [byte 255], []) from rfl]
    simp only [utf8Decode_ff]
  · rw [EncodedDepInfo.parse]
    simp only [List.append_assoc, List.cons_append, List.nil_append]
    rw [read_usize_write 0 (by norm_num)]
    simp only [parseFiles]
    rw [read_usize_write 1 (by norm_num)]
    simp only []
    rw [parseEnv]
    rw [read_bytes_write (utf8Encode ['k']) (by decide)]
    simp only [utf8Decode_encode, read_u8, byte_one_val]
    rw [show read_bytes (write_usize 1 ++ [byte 255]) = (some [byte 255], []) from rfl]
    simp only [utf8Decode_ff]
  · intro pkg tgt rr
    cases rr with
    | none => exact ⟨none, rfl⟩
    | some data =>
      rw [parse_dep_info]
      cases EncodedDepInfo.parse data with
      | none => exact ⟨none, rfl⟩
      | some info => exact ⟨_, rfl⟩
  · intro pkg tgt data hp
    rw [parse_dep_info, hp]

/-- Counterexample to C1 as stated: this record declares a checksum
(presence byte `1`) whose text is the single byte `0xFF`, which is not
valid UTF-8; the claim says the decoder must return no record at all, but
it returns a record keeping the file entry with the checksum silently
dropped. -/
theorem c1_invalid_checksum_utf8_counterexample :
    EncodedDepInfo.parse (write_usize 1 ++ [byte 1] ++ write_bytes [byte 65] ++ [byte 1]
        ++ write_u64 5 ++ write_bytes [byte 255] ++ write_usize 0)
      = some ⟨[(DepInfoPathType.TargetRootRelative, [byte 65], none)], []⟩ := by
  rw [EncodedDepInfo.parse]
  simp only [List.append_assoc, List.cons_append, List.nil_append]
  rw [read_usize_write 1 (by norm_num)]
  simp only []
  rw [parseFiles]
  simp only [read_u8, byte_one_val]
  rw [read_bytes_write [byte 65] (by norm_num)]
  simp only [read_bool_cons]
  rw [show ((byte 1).val != 0) = true from rfl]
  simp only [if_true]
  rw [read_u64_write 5 (by norm_num)]
  simp only []
  rw [read_bytes_write [byte 255] (by norm_num)]
  simp only [utf8Decode_ff]
  simp only [parseFiles]
  rw [show write_usize 0 = write_usize 0 ++ ([] : List Byte) from (List.append_nil _).symm,
    read_usize_write 0 (by norm_num)]
  simp only [parseEnv]

/-- Closed instance of the amended C1 at concrete inputs. -/
theorem c1_decode_failure_contract_witness :
    EncodedDepInfo.parse
        ((EncodedDepInfo.serialize
          ⟨[(DepInfoPathType.TargetRootRelative, [byte 65], none)], []⟩).take 7) = none
    ∧ EncodedDepInfo.parse (write_usize 1 ++ byte 2 :: []) = none
    ∧ parse_dep_info [] [] none = .ok none
    ∧ parse_dep_info [] [] (some []) = .ok none := by
  have h := c1_decode_failure_contract
  refine ⟨?_, h.2.1 (byte 2) (by decide) [], h.2.2.2.2.2.2.1 [] [], ?_⟩
  · apply h.1 ⟨[(DepInfoPathType.TargetRootRelative, [byte 65], none)], []⟩
    · refine ⟨by decide, by decide, ?_, ?_⟩
      · intro e he
        simp only [List.mem_singleton] at he
        subst he
        exact ⟨by decide, fun lc hlc => by cases hlc⟩
      · intro kv hkv
        cases hkv
    · intro e he
      simp only [List.mem_singleton] at he
      subst he
      rfl
    · decide
  · exact h.2.2.2.2.2.2.2 [] [] [] rfl
